import Mathlib

/-!
Verification of the shopping-list aggregator (`app.py`).

Strings are modelled as `List Char`.  The character classes `\s` and `\d`
of the Python regular expressions are modelled over their ASCII parts
(the inputs of the application are ordinary text).
-/

namespace Courses

/-- ASCII whitespace, modelling Python's `\s` / `str.strip` character class. -/
def isSpace (c : Char) : Bool :=
  c = ' ' || c = '\t' || c = '\n' || c = '\r' || c = '\x0b' || c = '\x0c'

/-- ASCII digit, modelling Python's `\d`. -/
def isDigit (c : Char) : Bool :=
  '0' ≤ c && c ≤ '9'

/-- `str.strip`: remove leading and trailing whitespace. -/
def strip (s : List Char) : List Char :=
  ((s.dropWhile isSpace).reverse.dropWhile isSpace).reverse

/-- Value of a decimal digit string, as computed by Python's `int`. -/
def digitsToNat (ds : List Char) : Nat :=
  ds.foldl (fun n c => n * 10 + (c.toNat - '0'.toNat)) 0

/-- The unit alternation `(g|kg|ml|L|cl)` of `parse_quantity`'s regex:
try the alternatives in order, returning the consumed unit and the rest. -/
def tryUnit : List Char → Option (List Char × List Char)
  | 'g' :: r => some (['g'], r)
  | 'k' :: 'g' :: r => some (['k', 'g'], r)
  | 'm' :: 'l' :: r => some (['m', 'l'], r)
  | 'L' :: r => some (['L'], r)
  | 'c' :: 'l' :: r => some (['c', 'l'], r)
  | _ => none

/-- `\)$` for Python `re`: a closing parenthesis followed by the end of the
string or by a single final newline. -/
def closeEnd : List Char → Bool
  | [')'] => true
  | [')', '\n'] => true
  | _ => false

/-- Match `(\d+)\s*(g|kg|ml|L|cl)?\)$` against what follows the opening
parenthesis: greedy digits, greedy whitespace, the optional unit (falling
back to no unit when the closing parenthesis does not follow it), then
`\)$`. -/
def parseAfterParen (rest : List Char) : Option (Nat × List Char) :=
  if rest.takeWhile isDigit = [] then none
  else
    match tryUnit ((rest.dropWhile isDigit).dropWhile isSpace) with
    | some (u, rest4) =>
      if closeEnd rest4 then some (digitsToNat (rest.takeWhile isDigit), u)
      else if closeEnd ((rest.dropWhile isDigit).dropWhile isSpace) then
        some (digitsToNat (rest.takeWhile isDigit), [])
      else none
    | none =>
      if closeEnd ((rest.dropWhile isDigit).dropWhile isSpace) then
        some (digitsToNat (rest.takeWhile isDigit), [])
      else none

/-- Match `\s*\((\d+)\s*(g|kg|ml|L|cl)?\)$` against the whole input,
returning the integer quantity and the unit.  Every quantifier here is
deterministic: the characters that may follow each starred class cannot
belong to it, so no backtracking beyond the optional unit is possible. -/
def parseSuffix (cs : List Char) : Option (Nat × List Char) :=
  match cs.dropWhile isSpace with
  | '(' :: rest => parseAfterParen rest
  | _ => none

/-- The possible values of the optional unit group: nothing, or one of the
five unit alternatives. -/
def unitStrings : List (List Char) :=
  [[], ['g'], ['k', 'g'], ['m', 'l'], ['L'], ['c', 'l']]

/-- The lazy group `(.+?)` of the regex: try the shortest non-empty base
first, extending it one character at a time; `.` does not cross a newline. -/
def tryFrom (acc : List Char) : List Char → Option (List Char × Nat × List Char)
  | [] => none
  | c :: rest =>
    if c = '\n' then none
    else
      match parseSuffix rest with
      | some (q, u) => some (acc ++ [c], q, u)
      | none => tryFrom (acc ++ [c]) rest

/-- `parse_quantity` from `app.py`: split a raw ingredient label into
`(base, quantity, unit)` via `re.match(r"^(.+?)\s*\((\d+)\s*(g|kg|ml|L|cl)?\)$", nom)`,
falling back to `(nom.strip(), None, "")` when the regex does not match. -/
def parse_quantity (nom : List Char) : List Char × Option Nat × List Char :=
  match tryFrom [] nom with
  | some (base, q, u) => (strip base, some q, u)
  | none => (strip nom, none, [])

/-- `str.lower` modelled on the ASCII and Latin-1 letter ranges
(covers the French aisle and ingredient names of the application). -/
def toLowerChar (c : Char) : Char :=
  if 'A' ≤ c ∧ c ≤ 'Z' then Char.ofNat (c.toNat + 32)
  else if 'À' ≤ c ∧ c ≤ 'Þ' ∧ c ≠ '×' then Char.ofNat (c.toNat + 32)
  else c

/-- An input ingredient record `{"nom": ..., "rayon": ...}`. -/
structure Ing where
  nom : List Char
  rayon : List Char
deriving DecidableEq, Inhabited

/-- An ingredient after `parse_quantity`: aisle, base name, quantity, unit. -/
structure Parsed where
  rayon : List Char
  base : List Char
  qty : Option Nat
  unit : List Char
deriving DecidableEq, Inhabited

/-- Parse one ingredient of `merge_ingredients`'s loop. -/
def parseIng (i : Ing) : Parsed :=
  ⟨i.rayon, (parse_quantity i.nom).1, (parse_quantity i.nom).2.1, (parse_quantity i.nom).2.2⟩

/-- The merge key `(base.lower(), rayon)`. -/
def keyOf (p : Parsed) : List Char × List Char :=
  (p.base.map toLowerChar, p.rayon)

/-- One value of the `merged` dictionary. -/
structure Entry where
  rayon : List Char
  nom_base : List Char
  qty : Option Nat
  unit : List Char
deriving DecidableEq, Inhabited

/-- The entry created when a merge key is first seen. -/
def initEntry (p : Parsed) : Entry :=
  ⟨p.rayon, p.base, p.qty, p.unit⟩

/-- The update applied when a merge key is seen again: sum present
quantities (keeping the stored unit), adopt a new quantity and unit when the
stored quantity was absent, and ignore an absent incoming quantity. -/
def updEntry (e : Entry) (p : Parsed) : Entry :=
  match p.qty, e.qty with
  | some q, some eq0 => { e with qty := some (eq0 + q) }
  | some q, none => { e with qty := some q, unit := p.unit }
  | none, _ => e

abbrev MKey := List Char × List Char

/-- Two ingredients are merge-compatible when, whenever they share a merge
key, their parsed bases agree exactly and their units agree whenever both
carry a quantity.  (This is what the counterexamples to unconditional
commutativity force: the first-seen unit and the first-seen base casing are
kept.) -/
def IngCompat (x y : Ing) : Prop :=
  keyOf (parseIng x) = keyOf (parseIng y) →
    (parseIng x).base = (parseIng y).base ∧
    ((parseIng x).qty.isSome = true → (parseIng y).qty.isSome = true →
      (parseIng x).unit = (parseIng y).unit)

instance (x y : Ing) : Decidable (IngCompat x y) := by
  unfold IngCompat
  infer_instance


/-- Lookup in an insertion-ordered association list (a Python `dict`). -/
def lookupKey : List (MKey × Entry) → MKey → Option Entry
  | [], _ => none
  | (k', e) :: t, k => if k' = k then some e else lookupKey t k

/-- In-place update of the binding of `k` (Python `merged[key] = ...` on an
existing key keeps its position). -/
def updateAt : List (MKey × Entry) → MKey → Parsed → List (MKey × Entry)
  | [], _, _ => []
  | (k', e) :: t, k, p => if k' = k then (k', updEntry e p) :: t else (k', e) :: updateAt t k p

/-- One iteration of `merge_ingredients`'s first loop. -/
def stepMerged (acc : List (MKey × Entry)) (i : Ing) : List (MKey × Entry) :=
  match lookupKey acc (keyOf (parseIng i)) with
  | some _ => updateAt acc (keyOf (parseIng i)) (parseIng i)
  | none => acc ++ [(keyOf (parseIng i), initEntry (parseIng i))]

/-- The `merged` dictionary after `merge_ingredients`'s first loop. -/
def mergeFold (l : List Ing) : List (MKey × Entry) :=
  l.foldl stepMerged []

/-- Decimal digits of `n`, as Python's `f"{n}"` renders a non-negative
integer; fuel-based so that the kernel can evaluate it. -/
def natDigitsGo : Nat → Nat → List Char
  | 0, _ => []
  | fuel + 1, n =>
    if n < 10 then [Char.ofNat (48 + n)]
    else natDigitsGo fuel (n / 10) ++ [Char.ofNat (48 + n % 10)]

/-- Decimal representation of a natural number. -/
def natDigits (n : Nat) : List Char :=
  natDigitsGo (n + 1) n

/-- Render one merged entry: `f"{nom_base} ({qty}{unit})"` when the quantity
is present, the bare base name otherwise. -/
def renderEntry (e : Entry) : List Char :=
  match e.qty with
  | some q => e.nom_base ++ ' ' :: '(' :: (natDigits q ++ e.unit ++ [')'])
  | none => e.nom_base

/-- Append a rendered display to its aisle's list, creating the aisle at the
end of the dictionary when it is new. -/
def addDisp : List (List Char × List (List Char)) → List Char → List Char →
    List (List Char × List (List Char))
  | [], r, d => [(r, [d])]
  | (r', ds) :: t, r, d =>
    if r' = r then (r', ds ++ [d]) :: t else (r', ds) :: addDisp t r d

/-- The second loop of `merge_ingredients`: group rendered entries by aisle,
in the insertion order of the `merged` dictionary. -/
def resultOf (m : List (MKey × Entry)) : List (List Char × List (List Char)) :=
  m.foldl (fun res ke => addDisp res ke.2.rayon (renderEntry ke.2)) []

/-- `merge_ingredients` from `app.py`. -/
def merge_ingredients (l : List Ing) : List (List Char × List (List Char)) :=
  resultOf (mergeFold l)

/-- `dict.get(r, [])` on an aisle dictionary. -/
def getD (m : List (List Char × List (List Char))) (r : List Char) : List (List Char) :=
  match m with
  | [] => []
  | (r', v) :: t => if r' = r then v else getD t r

/-- The effect of one parsed ingredient on the binding of its own merge key:
create the entry when absent, update it otherwise.  `stepMerged` acts as
`optionStep` on the binding of the ingredient's key and leaves every other
binding unchanged. -/
def optionStep (o : Option Entry) (p : Parsed) : Option Entry :=
  some (match o with
    | none => initEntry p
    | some e => updEntry e p)

/-- The subsequence of parsed ingredients of `l` whose merge key is `k`. -/
def parsesFor (l : List Ing) (k : MKey) : List Parsed :=
  (l.map parseIng).filter (fun p => decide (keyOf p = k))

/-- Sum of the present quantities of a parsed subsequence. -/
def totq (s : List Parsed) : Nat :=
  (s.filterMap Parsed.qty).sum

/-- Double a present quantity, leave an absent one (and everything else)
unchanged. -/
def doubleEntry (e : Entry) : Entry :=
  { e with qty := e.qty.map (fun q => 2 * q) }

/-- Lexicographic comparison of strings by code point, as Python compares
`str` values (used by `sorted`). -/
def lexLe : List Char → List Char → Bool
  | [], _ => true
  | _ :: _, [] => false
  | a :: as, b :: bs => if a < b then true else if a = b then lexLe as bs else false

/-- Insert into a `lexLe`-sorted list. -/
def insertSorted (x : List Char) : List (List Char) → List (List Char)
  | [] => [x]
  | y :: t => if lexLe x y then x :: y :: t else y :: insertSorted x t

/-- Insertion sort by `lexLe`. -/
def sortLex (l : List (List Char)) : List (List Char) :=
  l.foldr insertSorted []

/-- Python's `sorted(set(l))`: the distinct members of `l` in `lexLe` order. -/
def sortedDedup (l : List (List Char)) : List (List Char) :=
  sortLex l.dedup

/-- The keys of an aisle dictionary. -/
def keysOf (m : List (List Char × List (List Char))) : List (List Char) :=
  m.map Prod.fst

/-- The fixed canonical aisle ordering of `build_final_list`. -/
def rayon_order : List (List Char) :=
  ["BOULANGERIE".data, "LÉGUMES".data, "FRUITS".data, "AIL & FINES HERBES".data,
   "CHARCUTERIE".data, "TRAITEUR".data, "POISSONNERIE".data, "BOUCHERIE".data,
   "SURGELÉS".data, "FROMAGES".data, "YAOURTS".data, "PRODUITS LAITIERS".data,
   "ÉPICERIE SALÉE".data, "CUISINE DU MONDE".data, "ÉPICERIE SUCRÉE".data,
   "BOISSONS".data, "NOURRITURE BÉBÉ".data, "HYGIÈNE & DIVERS".data]

/-- The items of aisle `r` combined from the two sources. -/
def combinedItems (m1 m2 : List (List Char × List (List Char))) (r : List Char) :
    List (List Char) :=
  getD m1 r ++ getD m2 r

/-- The row `build_final_list` stores for aisle `r`: present only when `r`
occurs in a source and the combined item set is non-empty, and then carrying
the sorted deduplicated union. -/
def rowFor (m1 m2 : List (List Char × List (List Char))) (r : List Char) :
    Option (List Char × List (List Char)) :=
  if r ∈ keysOf m1 ++ keysOf m2 then
    if combinedItems m1 m2 r = [] then none else some (r, sortedDedup (combinedItems m1 m2 r))
  else none

/-- `build_final_list` from `app.py`: walk the canonical aisle order, then
the remaining aisles of the union sorted alphabetically, storing for each the
sorted set union of both sources' items when it is non-empty. -/
def build_final_list (m1 m2 : List (List Char × List (List Char))) :
    List (List Char × List (List Char)) :=
  rayon_order.filterMap (rowFor m1 m2) ++
    (sortedDedup ((keysOf m1 ++ keysOf m2).filter
      (fun r => decide (r ∉ rayon_order)))).filterMap (rowFor m1 m2)

/-! ### The Notion export

`export_to_notion` is modelled with its two effect channels made explicit:
the outcome of the page-creation `POST` and the outcome of each follow-up
batch `PATCH` are inputs, and the payloads passed to the HTTP calls are
returned alongside the `(success, message, url)` result. -/

/-- One Notion block of the serialized list. -/
inductive Block where
  | recipesPara (names : List (List Char))
  | divider
  | heading (rayon : List Char)
  | todo (item : List Char)
deriving DecidableEq, Inhabited

/-- The `children` block list: an italic recipe line and a divider when
recipes were selected, then one heading per aisle followed by one to-do
block per item. -/
def buildChildren (final_list : List (List Char × List (List Char)))
    (selected : List (List Char)) : List Block :=
  (if selected = [] then [] else [Block.recipesPara selected, Block.divider]) ++
    final_list.flatMap (fun p => Block.heading p.1 :: p.2.map Block.todo)

/-- The outcome of one HTTP request: a timeout, another exception carrying a
message, or a response with its status code, page url, page id and error
message field. -/
inductive HttpOutcome where
  | timeout
  | exc (msg : List Char)
  | resp (status : Nat) (url pid emsg : List Char)
deriving DecidableEq, Inhabited

/-- Whether an HTTP outcome is a response (of any status) rather than a
raised exception. -/
def isResp : HttpOutcome → Bool
  | .resp _ _ _ _ => true
  | _ => false

/-- Why the batch-append loop stopped early. -/
inductive PatchFail where
  | timeout
  | exc (msg : List Char)
deriving DecidableEq, Inhabited

/-- The Notion credentials (`NOTION_TOKEN`, `NOTION_PAGE_ID`). -/
structure NotionCfg where
  token : List Char
  pageId : List Char
deriving DecidableEq, Inhabited

def configMsg : List Char := "Configuration Notion manquante. Vérifiez le fichier .env.".data

def timeoutMsg : List Char := "Timeout : Notion n'a pas répondu.".data

def successMsg : List Char := "Page créée dans Notion !".data

def excMsg (m : List Char) : List Char := "Erreur : ".data ++ m

def notionErrMsg (m : List Char) : List Char := "Erreur Notion : ".data ++ m

/-- Chunks of at most 100 blocks, fuel-based (`fuel ≥ length` suffices). -/
def chunksGo : Nat → List Block → List (List Block)
  | 0, _ => []
  | _, [] => []
  | fuel + 1, b :: bs => ((b :: bs).take 100) :: chunksGo fuel ((b :: bs).drop 100)

/-- The batches `children[i:i+100]` for `i in range(100, len(children), 100)`,
applied to `children[100:]`. -/
def chunks100 (l : List Block) : List (List Block) :=
  chunksGo l.length l

/-- The batch-append loop: send each batch in order; a timeout or another
exception raised by a `PATCH` aborts the loop.  Returns the payloads passed
to `requests.patch` and the exception that escaped the loop, if any. -/
def patchLoop (f : Nat → HttpOutcome) : List (List Block) → Nat →
    List (List Block) × Option PatchFail
  | [], _ => ([], none)
  | b :: bs, i =>
    match f i with
    | .timeout => ([b], some .timeout)
    | .exc m => ([b], some (.exc m))
    | .resp _ _ _ _ =>
      let r := patchLoop f bs (i + 1)
      (b :: r.1, r.2)

/-- The observable behaviour of `export_to_notion`: its returned triple and
the payloads of the HTTP calls it made. -/
structure ExportResult where
  ok : Bool
  msg : List Char
  url : Option (List Char)
  creationPayload : Option (List Block)
  patchPayloads : List (List Block)
deriving DecidableEq, Inhabited

/-- `export_to_notion` from `app.py`.  `post` is the outcome of the
page-creation request, `patchf i` the outcome of the `i`-th follow-up batch
request.  Missing credentials, a creation timeout, another creation
exception and a non-200 creation status each produce a `(False, message,
None)` triple; on a 200 status the remaining blocks are appended in batches
of 100 inside the same `try`, so an exception in a batch call also produces
a failure triple. -/
def export_to_notion (cfg : Option NotionCfg)
    (final_list : List (List Char × List (List Char))) (selected : List (List Char))
    (post : HttpOutcome) (patchf : Nat → HttpOutcome) : ExportResult :=
  match cfg with
  | none => ⟨false, configMsg, none, none, []⟩
  | some _ =>
    let children := buildChildren final_list selected
    let payload := children.take 100
    match post with
    | .timeout => ⟨false, timeoutMsg, none, some payload, []⟩
    | .exc m => ⟨false, excMsg m, none, some payload, []⟩
    | .resp status url _pid emsg =>
      if status = 200 then
        let pl := patchLoop patchf (chunks100 (children.drop 100)) 0
        match pl.2 with
        | none => ⟨true, successMsg, some url, some payload, pl.1⟩
        | some .timeout => ⟨false, timeoutMsg, none, some payload, pl.1⟩
        | some (.exc m) => ⟨false, excMsg m, none, some payload, pl.1⟩
      else ⟨false, notionErrMsg emsg, none, some payload, []⟩

end Courses

section ParserChecks
open Courses

example : parse_quantity "Carottes (450g)".data = ("Carottes".data, some 450, "g".data) := by
  decide

example : parse_quantity "Tomates (3)".data = ("Tomates".data, some 3, []) := by decide

example : parse_quantity "Crème fraîche".data = ("Crème fraîche".data, none, []) := by decide

example : parse_quantity "Lait (50cl)".data = ("Lait".data, some 50, "cl".data) := by decide

example : parse_quantity "Pommes (3kg)".data = ("Pommes".data, some 3, "kg".data) := by decide

example : parse_quantity "Truc (5ml)".data = ("Truc".data, some 5, "ml".data) := by decide

example : parse_quantity "Eau (1L)".data = ("Eau".data, some 1, "L".data) := by decide

example : parse_quantity "Tomates (beaucoup)".data = ("Tomates (beaucoup)".data, none, []) := by
  decide

example : parse_quantity "A (45) (3g)".data = ("A (45)".data, some 3, "g".data) := by decide

example : parse_quantity "  X  ".data = ("X".data, none, []) := by decide

end ParserChecks

section MergeChecks
open Courses

example :
    merge_ingredients [⟨"Carottes (450g)".data, "LÉGUMES".data⟩,
      ⟨"carottes (100g)".data, "LÉGUMES".data⟩] =
      [("LÉGUMES".data, ["Carottes (550g)".data])] := by decide

example :
    merge_ingredients [⟨"Sel".data, "ÉPICERIE SALÉE".data⟩,
      ⟨"sel (3g)".data, "ÉPICERIE SALÉE".data⟩] =
      [("ÉPICERIE SALÉE".data, ["Sel (3g)".data])] := by decide

example :
    merge_ingredients [⟨"Sel (3g)".data, "R".data⟩, ⟨"sel".data, "R".data⟩] =
      [("R".data, ["Sel (3g)".data])] := by decide

example :
    merge_ingredients [⟨"A (1g)".data, "R".data⟩, ⟨"A (2kg)".data, "R".data⟩] =
      [("R".data, ["A (3g)".data])] := by decide

example :
    merge_ingredients [⟨"A (2kg)".data, "R".data⟩, ⟨"A (1g)".data, "R".data⟩] =
      [("R".data, ["A (3kg)".data])] := by decide

example :
    merge_ingredients [⟨"A".data, "R1".data⟩, ⟨"B (2)".data, "R2".data⟩, ⟨"a".data, "R1".data⟩] =
      [("R1".data, ["A".data]), ("R2".data, ["B (2)".data])] := by decide

end MergeChecks

section BuildChecks
open Courses

example :
    build_final_list [("FRUITS".data, ["Pommes".data]), ("ZZZ_UNKNOWN".data, ["Truc".data])]
      [("BOULANGERIE".data, ["Pain".data])] =
    [("BOULANGERIE".data, ["Pain".data]), ("FRUITS".data, ["Pommes".data]),
     ("ZZZ_UNKNOWN".data, ["Truc".data])] := by decide

example :
    build_final_list [("FRUITS".data, ["Pommes".data, "Abricots".data])]
      [("FRUITS".data, ["Pommes".data])] =
    [("FRUITS".data, ["Abricots".data, "Pommes".data])] := by decide

example : build_final_list [("FRUITS".data, [])] [] = [] := by decide

example :
    (export_to_notion (some ⟨['t'], ['p']⟩) [(['R'], [['a'], ['b']])] []
      (.resp 200 ['u'] ['i'] []) (fun _ => .resp 200 [] [] [])) =
    ⟨true, successMsg, some ['u'],
      some [Block.heading ['R'], Block.todo ['a'], Block.todo ['b']], []⟩ := by decide

example :
    (export_to_notion (some ⟨['t'], ['p']⟩) [(['R'], [['a']])] [] .timeout
      (fun _ => .resp 200 [] [] [])) =
    ⟨false, timeoutMsg, none, some [Block.heading ['R'], Block.todo ['a']], []⟩ := by decide

end BuildChecks

namespace Courses

/-! ### Dictionary lemmas for the merge fold -/

theorem lookupKey_append_single (m : List (MKey × Entry)) (k0 : MKey) (e0 : Entry) (k : MKey) :
    lookupKey (m ++ [(k0, e0)]) k =
      match lookupKey m k with
      | some e => some e
      | none => if k0 = k then some e0 else none := by
  induction m with
  | nil => simp [lookupKey]
  | cons he t ih =>
    obtain ⟨k', e'⟩ := he
    by_cases h : k' = k
    · simp [lookupKey, h]
    · simp [lookupKey, h, ih]

theorem lookupKey_updateAt (m : List (MKey × Entry)) (k0 : MKey) (p : Parsed) (k : MKey) :
    lookupKey (updateAt m k0 p) k =
      if k = k0 then (lookupKey m k0).map (fun e => updEntry e p)
      else lookupKey m k := by
  induction m with
  | nil =>
    by_cases h : k = k0 <;> simp [lookupKey, updateAt, h]
  | cons he t ih =>
    obtain ⟨k', e'⟩ := he
    by_cases h0 : k' = k0
    · subst h0
      by_cases h : k' = k
      · subst h
        simp [updateAt, lookupKey]
      · have h' : ¬k = k' := fun hh => h hh.symm
        simp [updateAt, lookupKey, h, h', ih]
    · by_cases h : k' = k
      · subst h
        simp [updateAt, lookupKey, h0, fun hh : k' = k0 => h0 hh]
      · simp [updateAt, lookupKey, h0, h, ih]

theorem lookupKey_stepMerged (acc : List (MKey × Entry)) (i : Ing) (k : MKey) :
    lookupKey (stepMerged acc i) k =
      if k = keyOf (parseIng i) then optionStep (lookupKey acc k) (parseIng i)
      else lookupKey acc k := by
  unfold stepMerged
  cases h : lookupKey acc (keyOf (parseIng i)) with
  | none =>
    rw [lookupKey_append_single]
    by_cases hk : k = keyOf (parseIng i)
    · subst hk
      simp [h, optionStep]
    · have hk' : ¬keyOf (parseIng i) = k := fun hh => hk hh.symm
      cases h2 : lookupKey acc k <;> simp [h2, optionStep, hk, hk']
  | some e =>
    rw [lookupKey_updateAt]
    by_cases hk : k = keyOf (parseIng i)
    · subst hk
      simp [h, optionStep]
    · simp [hk]

theorem lookup_foldl_stepMerged (l : List Ing) :
    ∀ (acc : List (MKey × Entry)) (k : MKey),
      lookupKey (List.foldl stepMerged acc l) k =
        List.foldl optionStep (lookupKey acc k) (parsesFor l k) := by
  induction l with
  | nil => intro acc k; simp [parsesFor]
  | cons i t ih =>
    intro acc k
    have hpf : parsesFor (i :: t) k =
        if keyOf (parseIng i) = k then parseIng i :: parsesFor t k else parsesFor t k := by
      simp only [parsesFor, List.map_cons, List.filter_cons]
      by_cases h : keyOf (parseIng i) = k <;> simp [h]
    rw [List.foldl_cons, ih, lookupKey_stepMerged, hpf]
    by_cases h : keyOf (parseIng i) = k
    · simp [h]
    · have h' : ¬k = keyOf (parseIng i) := fun hh => h hh.symm
      simp [h, h']

/-- The binding of key `k` after merging is the `optionStep` fold over the
subsequence of parsed ingredients whose key is `k`. -/
theorem lookup_mergeFold (l : List Ing) (k : MKey) :
    lookupKey (mergeFold l) k = List.foldl optionStep none (parsesFor l k) := by
  have h := lookup_foldl_stepMerged l [] k
  simpa [mergeFold, lookupKey] using h

end Courses

namespace Courses

theorem keys_updateAt (m : List (MKey × Entry)) (k0 : MKey) (p : Parsed) :
    (updateAt m k0 p).map Prod.fst = m.map Prod.fst := by
  induction m with
  | nil => rfl
  | cons he t ih =>
    obtain ⟨k', e'⟩ := he
    by_cases h : k' = k0 <;> simp [updateAt, h, ih]

theorem lookupKey_eq_none_iff (m : List (MKey × Entry)) (k : MKey) :
    lookupKey m k = none ↔ k ∉ m.map Prod.fst := by
  induction m with
  | nil => simp [lookupKey]
  | cons he t ih =>
    obtain ⟨k', e'⟩ := he
    by_cases h : k' = k
    · subst h
      simp [lookupKey]
    · have h' : ¬k = k' := fun hh => h hh.symm
      simp [lookupKey, h, h', ih]

theorem nodupKeys_stepMerged (m : List (MKey × Entry)) (i : Ing)
    (h : (m.map Prod.fst).Nodup) : ((stepMerged m i).map Prod.fst).Nodup := by
  unfold stepMerged
  cases hl : lookupKey m (keyOf (parseIng i)) with
  | none =>
    have hnot : keyOf (parseIng i) ∉ m.map Prod.fst := (lookupKey_eq_none_iff _ _).mp hl
    simp only [List.map_append, List.map_cons, List.map_nil]
    rw [List.nodup_append]
    refine ⟨h, List.nodup_singleton _, ?_⟩
    intro a ha hb
    simp only [List.mem_singleton] at hb
    exact hnot (hb ▸ ha)
  | some e => simpa [keys_updateAt] using h

theorem nodupKeys_mergeFold (l : List Ing) : ((mergeFold l).map Prod.fst).Nodup := by
  have hgen : ∀ (acc : List (MKey × Entry)), (acc.map Prod.fst).Nodup →
      ((List.foldl stepMerged acc l).map Prod.fst).Nodup := by
    induction l with
    | nil => intro acc h; simpa using h
    | cons i t ih =>
      intro acc h
      exact ih _ (nodupKeys_stepMerged acc i h)
  simpa [mergeFold] using hgen [] (by simp)

theorem lookupKey_cons_self (k : MKey) (e : Entry) (t : List (MKey × Entry)) :
    lookupKey ((k, e) :: t) k = some e := by
  simp [lookupKey]

theorem lookupKey_cons_ne (k' k : MKey) (e : Entry) (t : List (MKey × Entry))
    (h : ¬k' = k) : lookupKey ((k', e) :: t) k = lookupKey t k := by
  simp [lookupKey, h]

theorem mem_iff_lookupKey (m : List (MKey × Entry)) (h : (m.map Prod.fst).Nodup)
    (k : MKey) (e : Entry) : (k, e) ∈ m ↔ lookupKey m k = some e := by
  induction m with
  | nil => simp [lookupKey]
  | cons he t ih =>
    obtain ⟨k', e'⟩ := he
    simp only [List.map_cons, List.nodup_cons] at h
    by_cases hk : k' = k
    · subst hk
      rw [lookupKey_cons_self]
      constructor
      · intro hh
        rcases List.mem_cons.mp hh with hh | hh
        · rw [Prod.ext_iff] at hh
          simp only at hh
          rw [hh.2]
        · exact absurd (List.mem_map_of_mem Prod.fst hh) h.1
      · intro hh
        rw [Option.some_inj] at hh
        exact List.mem_cons.mpr (Or.inl (by rw [hh]))
    · rw [lookupKey_cons_ne _ _ _ _ hk, ← ih h.2]
      constructor
      · intro hh
        rcases List.mem_cons.mp hh with hh | hh
        · exact absurd (congrArg Prod.fst hh).symm hk
        · exact hh
      · exact fun hh => List.mem_cons.mpr (Or.inr hh)

end Courses

namespace Courses

/-! ### From the merged dictionary to the per-aisle display lists -/

theorem getD_addDisp (res : List (List Char × List (List Char))) (r' : List Char)
    (d' : List Char) (r : List Char) :
    getD (addDisp res r' d') r = if r = r' then getD res r ++ [d'] else getD res r := by
  induction res with
  | nil =>
    by_cases h : r = r'
    · subst h
      simp [addDisp, getD]
    · have h' : ¬r' = r := fun hh => h hh.symm
      simp [addDisp, getD, h, h']
  | cons he t ih =>
    obtain ⟨r0, ds⟩ := he
    by_cases h0 : r0 = r'
    · subst h0
      by_cases h : r0 = r
      · subst h
        simp [addDisp, getD]
      · have h' : ¬r = r0 := fun hh => h hh.symm
        simp [addDisp, getD, h, h']
    · by_cases h : r0 = r
      · subst h
        simp [addDisp, getD, h0]
      · simp [addDisp, getD, h0, h, ih]

theorem mem_getD_resultFold (m : List (MKey × Entry)) :
    ∀ (res : List (List Char × List (List Char))) (r d : List Char),
      (d ∈ getD (m.foldl (fun res ke => addDisp res ke.2.rayon (renderEntry ke.2)) res) r ↔
        d ∈ getD res r ∨ ∃ ke, ke ∈ m ∧ ke.2.rayon = r ∧ renderEntry ke.2 = d) := by
  induction m with
  | nil =>
    intro res r d
    simp
  | cons ke t ih =>
    intro res r d
    rw [List.foldl_cons, ih, getD_addDisp]
    by_cases h : r = ke.2.rayon
    · subst h
      rw [if_pos rfl]
      simp only [List.mem_append, List.mem_singleton, List.mem_cons]
      aesop
    · rw [if_neg h]
      simp only [List.mem_cons]
      aesop

/-- A display string belongs to aisle `r` of `merge_ingredients`'s output
iff some entry of the merged dictionary renders to it in that aisle. -/
theorem mem_getD_merge (l : List Ing) (r d : List Char) :
    d ∈ getD (merge_ingredients l) r ↔
      ∃ ke, ke ∈ mergeFold l ∧ ke.2.rayon = r ∧ renderEntry ke.2 = d := by
  have h := mem_getD_resultFold (mergeFold l) [] r d
  simpa [merge_ingredients, resultOf, getD] using h

end Courses

namespace Courses

/-! ### Commutation of the merge step -/

/-- When the regex does not supply a quantity, `parse_quantity` returns an
empty unit. -/
theorem parse_unit_of_none (nom : List Char)
    (h : (parse_quantity nom).2.1 = none) : (parse_quantity nom).2.2 = [] := by
  unfold parse_quantity at h ⊢
  cases htf : tryFrom [] nom with
  | none => simp [htf]
  | some v =>
    obtain ⟨b, q, u⟩ := v
    rw [htf] at h
    simp at h

theorem parseIng_unit_of_none (x : Ing) (h : (parseIng x).qty = none) :
    (parseIng x).unit = [] :=
  parse_unit_of_none x.nom h

theorem updEntry_init_comm (p q : Parsed) (hr : p.rayon = q.rayon) (hb : p.base = q.base)
    (hu : p.qty.isSome = true → q.qty.isSome = true → p.unit = q.unit)
    (hpu : p.qty = none → p.unit = []) (hqu : q.qty = none → q.unit = []) :
    updEntry (initEntry p) q = updEntry (initEntry q) p := by
  obtain ⟨pr, pb, pq, pu⟩ := p
  obtain ⟨qr, qb, qq, qu⟩ := q
  simp only at hr hb hu hpu hqu
  subst hr
  subst hb
  cases pq with
  | none =>
    cases qq with
    | none => simp [updEntry, initEntry, hpu rfl, hqu rfl]
    | some b => simp [updEntry, initEntry]
  | some a =>
    cases qq with
    | none => simp [updEntry, initEntry]
    | some b =>
      have hpq : pu = qu := hu rfl rfl
      simp [updEntry, initEntry, hpq, Nat.add_comm]

theorem updEntry_upd_comm (e : Entry) (p q : Parsed)
    (hu : p.qty.isSome = true → q.qty.isSome = true → p.unit = q.unit) :
    updEntry (updEntry e p) q = updEntry (updEntry e q) p := by
  obtain ⟨er, eb, eqy, eu⟩ := e
  obtain ⟨pr, pb, pq, pu⟩ := p
  obtain ⟨qr, qb, qq, qu⟩ := q
  simp only at hu
  cases eqy with
  | some c =>
    cases pq <;> cases qq <;> simp [updEntry]
    omega
  | none =>
    cases pq with
    | none => cases qq <;> simp [updEntry]
    | some a =>
      cases qq with
      | none => simp [updEntry]
      | some b =>
        have hpq : pu = qu := hu rfl rfl
        simp [updEntry, hpq]
        omega

theorem optionStep_comm (p q : Parsed) (hr : p.rayon = q.rayon) (hb : p.base = q.base)
    (hu : p.qty.isSome = true → q.qty.isSome = true → p.unit = q.unit)
    (hpu : p.qty = none → p.unit = []) (hqu : q.qty = none → q.unit = []) (o : Option Entry) :
    optionStep (optionStep o p) q = optionStep (optionStep o q) p := by
  cases o with
  | none => simp [optionStep, updEntry_init_comm p q hr hb hu hpu hqu]
  | some e => simp [optionStep, updEntry_upd_comm e p q hu]

theorem mem_parsesFor (l : List Ing) (k : MKey) (p : Parsed) (h : p ∈ parsesFor l k) :
    keyOf p = k ∧ ∃ x, x ∈ l ∧ parseIng x = p := by
  unfold parsesFor at h
  have h1 := List.mem_filter.mp h
  have h2 := List.mem_map.mp h1.1
  refine ⟨of_decide_eq_true h1.2, ?_⟩
  obtain ⟨x, hx, hpx⟩ := h2
  exact ⟨x, hx, hpx⟩

theorem lookup_merge_perm (l1 l2 : List Ing) (hperm : l1.Perm l2)
    (hcompat : ∀ x ∈ l1, ∀ y ∈ l1, IngCompat x y) (k : MKey) :
    lookupKey (mergeFold l1) k = lookupKey (mergeFold l2) k := by
  rw [lookup_mergeFold, lookup_mergeFold]
  have hperm2 : (parsesFor l1 k).Perm (parsesFor l2 k) :=
    (hperm.map parseIng).filter _
  refine hperm2.foldl_eq' ?_ none
  intro p hp q hq o
  obtain ⟨hkp, x, hx, hpx⟩ := mem_parsesFor l1 k p hp
  obtain ⟨hkq, y, hy, hqy⟩ := mem_parsesFor l1 k q hq
  have hkey : keyOf p = keyOf q := by rw [hkp, hkq]
  have hcx := hcompat x hx y hy
  unfold IngCompat at hcx
  rw [hpx, hqy] at hcx
  have hcx2 := hcx hkey
  have hr : p.rayon = q.rayon := congrArg Prod.snd hkey
  have hpu : p.qty = none → p.unit = [] := fun hh => by
    rw [← hpx] at hh ⊢
    exact parseIng_unit_of_none x hh
  have hqu : q.qty = none → q.unit = [] := fun hh => by
    rw [← hqy] at hh ⊢
    exact parseIng_unit_of_none y hh
  exact optionStep_comm p q hr hcx2.1 hcx2.2 hpu hqu o

theorem mem_mergeFold_perm (l1 l2 : List Ing) (hperm : l1.Perm l2)
    (hcompat : ∀ x ∈ l1, ∀ y ∈ l1, IngCompat x y) (ke : MKey × Entry) :
    ke ∈ mergeFold l1 ↔ ke ∈ mergeFold l2 := by
  obtain ⟨k, e⟩ := ke
  rw [mem_iff_lookupKey _ (nodupKeys_mergeFold l1),
    mem_iff_lookupKey _ (nodupKeys_mergeFold l2),
    lookup_merge_perm l1 l2 hperm hcompat k]

end Courses

namespace Courses

/-! ### Doubling: merging a list with itself -/

theorem parsesFor_append (l1 l2 : List Ing) (k : MKey) :
    parsesFor (l1 ++ l2) k = parsesFor l1 k ++ parsesFor l2 k := by
  simp [parsesFor]

theorem totq_cons (p : Parsed) (s : List Parsed) :
    totq (p :: s) = (match p.qty with | some a => a | none => 0) + totq s := by
  cases hq : p.qty <;> simp [totq, hq]

/-- Folding further parsed items into an entry with a present quantity adds
the sum of their present quantities and changes nothing else. -/
theorem foldl_optionStep_some (s : List Parsed) :
    ∀ (e : Entry) (c : Nat), e.qty = some c →
      List.foldl optionStep (some e) s = some { e with qty := some (c + totq s) } := by
  induction s with
  | nil =>
    intro e c hc
    simp [totq]
    rw [← hc]
  | cons p t ih =>
    intro e c hc
    rw [List.foldl_cons]
    cases hq : p.qty with
    | some a =>
      have hstep : optionStep (some e) p = some { e with qty := some (c + a) } := by
        obtain ⟨er, eb, eqy, eu⟩ := e
        simp only at hc
        subst hc
        obtain ⟨pr, pb, pq, pu⟩ := p
        simp only at hq
        subst hq
        simp [optionStep, updEntry]
      rw [hstep, ih _ (c + a) rfl, totq_cons, hq]
      have : c + a + totq t = c + (a + totq t) := by omega
      rw [this]
    | none =>
      have hstep : optionStep (some e) p = some e := by
        obtain ⟨pr, pb, pq, pu⟩ := p
        simp only at hq
        subst hq
        simp [optionStep, updEntry]
      rw [hstep, ih e c hc, totq_cons, hq]
      simp

/-- Folding parsed items into an entry with an absent quantity: if none of
them carries a quantity the entry is unchanged, otherwise the entry adopts
the unit of the first quantity-bearing item and the sum of the present
quantities. -/
theorem foldl_optionStep_none_qty (s : List Parsed) :
    ∀ (e : Entry), e.qty = none →
      List.foldl optionStep (some e) s =
        some (match s.find? (fun p => p.qty.isSome) with
          | none => e
          | some p0 => { e with qty := some (totq s), unit := p0.unit }) := by
  induction s with
  | nil =>
    intro e he
    simp [List.find?]
  | cons p t ih =>
    intro e he
    rw [List.foldl_cons]
    cases hq : p.qty with
    | some a =>
      have hstep : optionStep (some e) p = some { e with qty := some a, unit := p.unit } := by
        obtain ⟨er, eb, eqy, eu⟩ := e
        simp only at he
        subst he
        obtain ⟨pr, pb, pq, pu⟩ := p
        simp only at hq
        subst hq
        simp [optionStep, updEntry]
      rw [hstep, foldl_optionStep_some t _ a rfl]
      have hfind : (p :: t).find? (fun p => p.qty.isSome) = some p := by
        rw [List.find?_cons]
        simp [hq]
      rw [hfind, totq_cons, hq]
    | none =>
      have hstep : optionStep (some e) p = some e := by
        obtain ⟨pr, pb, pq, pu⟩ := p
        simp only at hq
        subst hq
        simp [optionStep, updEntry]
      rw [hstep, ih e he]
      have hfind : (p :: t).find? (fun p => p.qty.isSome) = t.find? (fun p => p.qty.isSome) := by
        rw [List.find?_cons]
        simp [hq]
      rw [hfind, totq_cons, hq]
      simp

/-- Folding the same parsed subsequence twice doubles a present quantity and
changes nothing else. -/
theorem foldl_optionStep_self (s : List Parsed) :
    List.foldl optionStep none (s ++ s) =
      (List.foldl optionStep none s).map doubleEntry := by
  cases s with
  | nil => simp
  | cons p t =>
    rw [List.foldl_append]
    rw [show List.foldl optionStep none (p :: t) = List.foldl optionStep (optionStep none p) t
      from List.foldl_cons ..]
    have hinit : optionStep none p = some (initEntry p) := by simp [optionStep]
    rw [hinit]
    cases hq : p.qty with
    | some a =>
      have hiq : (initEntry p).qty = some a := by simp [initEntry, hq]
      rw [foldl_optionStep_some t _ a hiq]
      have h2 : ({ initEntry p with qty := some (a + totq t) } : Entry).qty
          = some (a + totq t) := rfl
      rw [foldl_optionStep_some (p :: t) _ (a + totq t) h2, totq_cons, hq]
      simp [doubleEntry]
      omega
    | none =>
      have hiq : (initEntry p).qty = none := by simp [initEntry, hq]
      rw [foldl_optionStep_none_qty t _ hiq]
      cases hfind : t.find? (fun p => p.qty.isSome) with
      | none =>
        have hiq2 : (initEntry p).qty = none := hiq
        rw [foldl_optionStep_none_qty (p :: t) _ hiq2]
        have hfind2 : (p :: t).find? (fun p => p.qty.isSome) = none := by
          rw [List.find?_cons]
          simp [hq, hfind]
        rw [hfind2]
        simp [doubleEntry, initEntry, hq]
      | some p0 =>
        have h2 : ({ initEntry p with qty := some (totq t), unit := p0.unit } : Entry).qty
            = some (totq t) := rfl
        rw [foldl_optionStep_some (p :: t) _ (totq t) h2, totq_cons, hq]
        simp [doubleEntry]
        omega

/-- Merging `L ++ L` doubles every present quantity and leaves every other
entry field unchanged. -/
theorem lookup_mergeFold_self (L : List Ing) (k : MKey) :
    lookupKey (mergeFold (L ++ L)) k = (lookupKey (mergeFold L) k).map doubleEntry := by
  rw [lookup_mergeFold, lookup_mergeFold, parsesFor_append, foldl_optionStep_self]

end Courses

namespace Courses

/-! ### Character-class and scanning lemmas -/

theorem dropWhile_append_all (p : Char → Bool) (w : List Char)
    (hw : ∀ c ∈ w, p c = true) (x : List Char) :
    List.dropWhile p (w ++ x) = List.dropWhile p x := by
  induction w with
  | nil => rfl
  | cons c t ih =>
    have hc : p c = true := hw c (List.mem_cons_self c t)
    rw [List.cons_append, List.dropWhile_cons_of_pos hc]
    exact ih fun c hc2 => hw c (List.mem_cons_of_mem _ hc2)

theorem dropWhile_all (p : Char → Bool) (w : List Char) (hw : ∀ c ∈ w, p c = true) :
    List.dropWhile p w = [] := by
  have h := dropWhile_append_all p w hw []
  simpa using h

theorem takeWhile_append_not (p : Char → Bool) (ds : List Char)
    (hds : ∀ c ∈ ds, p c = true) (x : List Char)
    (hx : ∀ c t, x = c :: t → p c = false) :
    List.takeWhile p (ds ++ x) = ds ∧ List.dropWhile p (ds ++ x) = x := by
  induction ds with
  | nil =>
    cases x with
    | nil => simp
    | cons c t =>
      have hc := hx c t rfl
      simp [List.takeWhile_cons, List.dropWhile_cons, hc]
  | cons c t ih =>
    have hc : p c = true := hds c (List.mem_cons_self c t)
    have iht := ih fun c hc2 => hds c (List.mem_cons_of_mem _ hc2)
    simp [List.takeWhile_cons, List.dropWhile_cons, hc, iht.1, iht.2]

theorem isDigit_of_isSpace (c : Char) (h : isSpace c = true) : isDigit c = false := by
  simp only [isSpace, Bool.or_eq_true, decide_eq_true_eq] at h
  rcases h with ((((h | h) | h) | h) | h) | h <;> subst h <;> decide

theorem isSpace_paren_open : isSpace '(' = false := by decide

theorem not_mem_of_all_of_neg (p : Char → Bool) (l : List Char) (a : Char)
    (hl : ∀ c ∈ l, p c = true) (ha : p a = false) : a ∉ l := by
  intro hmem
  rw [hl a hmem] at ha
  exact Bool.noConfusion ha

end Courses

namespace Courses

/-! ### Soundness of the suffix matcher on well-formed quantity text -/

theorem head_w2u_not_digit (w2 u e : List Char) (hw2 : ∀ c ∈ w2, isSpace c = true)
    (hu : u ∈ unitStrings) : ∀ c t, w2 ++ u ++ ')' :: e = c :: t → isDigit c = false := by
  intro c t h
  cases w2 with
  | cons c0 t0 =>
    rw [List.cons_append] at h
    have hc := (List.cons.injEq _ _ _ _).mp h
    rw [← hc.1]
    exact isDigit_of_isSpace c0 (hw2 c0 (List.mem_cons_self c0 t0))
  | nil =>
    simp only [unitStrings, List.mem_cons, List.not_mem_nil, or_false] at hu
    rcases hu with rfl | rfl | rfl | rfl | rfl | rfl <;>
      simp only [List.nil_append, List.cons_append] at h <;>
      rw [← ((List.cons.injEq _ _ _ _).mp h).1] <;> decide

theorem head_u_close_not_space (u e : List Char) (hu : u ∈ unitStrings) :
    ∀ c t, u ++ ')' :: e = c :: t → isSpace c = false := by
  intro c t h
  simp only [unitStrings, List.mem_cons, List.not_mem_nil, or_false] at hu
  rcases hu with rfl | rfl | rfl | rfl | rfl | rfl <;>
    simp only [List.nil_append, List.cons_append] at h <;>
    rw [← ((List.cons.injEq _ _ _ _).mp h).1] <;> decide

theorem dropWhile_space_u_close (u e : List Char) (hu : u ∈ unitStrings) :
    List.dropWhile isSpace (u ++ ')' :: e) = u ++ ')' :: e := by
  cases hx : u ++ ')' :: e with
  | nil => rfl
  | cons c t =>
    have hc := head_u_close_not_space u e hu c t hx
    rw [List.dropWhile_cons_of_neg]
    rw [hc]
    exact Bool.false_ne_true

theorem parseAfterParen_sound (ds w2 u e : List Char)
    (hds : ds ≠ []) (hd : ∀ c ∈ ds, isDigit c = true)
    (hw2 : ∀ c ∈ w2, isSpace c = true) (hu : u ∈ unitStrings)
    (he : e = [] ∨ e = ['\n']) :
    parseAfterParen (ds ++ (w2 ++ u ++ ')' :: e)) = some (digitsToNat ds, u) := by
  obtain ⟨htake, hdrop⟩ :=
    takeWhile_append_not isDigit ds hd (w2 ++ u ++ ')' :: e) (head_w2u_not_digit w2 u e hw2 hu)
  unfold parseAfterParen
  rw [htake, hdrop, if_neg hds, List.append_assoc w2 u (')' :: e),
    dropWhile_append_all isSpace w2 hw2 (u ++ ')' :: e),
    dropWhile_space_u_close u e hu]
  simp only [unitStrings, List.mem_cons, List.not_mem_nil, or_false] at hu
  rcases hu with rfl | rfl | rfl | rfl | rfl | rfl <;> rcases he with rfl | rfl <;> rfl

theorem parseSuffix_sound (w1 ds w2 u e : List Char)
    (hw1 : ∀ c ∈ w1, isSpace c = true) (hds : ds ≠ [])
    (hd : ∀ c ∈ ds, isDigit c = true) (hw2 : ∀ c ∈ w2, isSpace c = true)
    (hu : u ∈ unitStrings) (he : e = [] ∨ e = ['\n']) :
    parseSuffix (w1 ++ '(' :: (ds ++ (w2 ++ u ++ ')' :: e))) = some (digitsToNat ds, u) := by
  unfold parseSuffix
  rw [dropWhile_append_all isSpace w1 hw1,
    List.dropWhile_cons_of_neg (by decide : ¬isSpace '(' = true)]
  exact parseAfterParen_sound ds w2 u e hds hd hw2 hu he

end Courses

namespace Courses

/-! ### Completeness of the suffix matcher -/

theorem tryUnit_complete (cs u0 r : List Char) (h : tryUnit cs = some (u0, r)) :
    cs = u0 ++ r ∧ u0 ∈ unitStrings := by
  unfold tryUnit at h
  split at h <;> simp at h <;> obtain ⟨h1, h2⟩ := h <;> subst h1 <;> subst h2 <;>
    exact ⟨rfl, by simp [unitStrings]⟩

theorem closeEnd_complete (l : List Char) (h : closeEnd l = true) :
    l = [')'] ∨ l = [')', '\n'] := by
  unfold closeEnd at h
  split at h <;> simp_all

theorem parseAfterParen_complete (rest : List Char) (q : Nat) (u : List Char)
    (h : parseAfterParen rest = some (q, u)) :
    ∃ ds w2 e, rest = ds ++ (w2 ++ u ++ ')' :: e) ∧ ds ≠ [] ∧
      (∀ c ∈ ds, isDigit c = true) ∧ q = digitsToNat ds ∧
      (∀ c ∈ w2, isSpace c = true) ∧ u ∈ unitStrings ∧ (e = [] ∨ e = ['\n']) := by
  have hr2 : rest = rest.takeWhile isDigit ++ rest.dropWhile isDigit :=
    (List.takeWhile_append_dropWhile ..).symm
  have hr3 : rest.dropWhile isDigit =
      (rest.dropWhile isDigit).takeWhile isSpace ++ (rest.dropWhile isDigit).dropWhile isSpace :=
    (List.takeWhile_append_dropWhile ..).symm
  have hdig : ∀ c ∈ rest.takeWhile isDigit, isDigit c = true :=
    fun c hc => List.mem_takeWhile_imp hc
  have hsp : ∀ c ∈ (rest.dropWhile isDigit).takeWhile isSpace, isSpace c = true :=
    fun c hc => List.mem_takeWhile_imp hc
  unfold parseAfterParen at h
  split at h
  · exact absurd h (by simp)
  · rename_i hds
    split at h
    · rename_i u' rest4 htu
      obtain ⟨htu1, htu2⟩ := tryUnit_complete _ _ _ htu
      split at h
      · rename_i hce
        rw [Option.some_inj] at h
        have hq : q = digitsToNat (rest.takeWhile isDigit) := ((Prod.ext_iff.mp h).1).symm
        have hu2 : u = u' := ((Prod.ext_iff.mp h).2).symm
        rcases closeEnd_complete _ hce with hr4 | hr4
        · refine ⟨rest.takeWhile isDigit, (rest.dropWhile isDigit).takeWhile isSpace, [],
            ?_, hds, hdig, hq, hsp, by rw [hu2]; exact htu2, Or.inl rfl⟩
          rw [hu2, List.append_assoc, ← hr4, ← htu1, ← hr3, ← hr2]
        · refine ⟨rest.takeWhile isDigit, (rest.dropWhile isDigit).takeWhile isSpace, ['\n'],
            ?_, hds, hdig, hq, hsp, by rw [hu2]; exact htu2, Or.inr rfl⟩
          rw [hu2, List.append_assoc, show (')' : Char) :: ['\n'] = [')', '\n'] from rfl,
            ← hr4, ← htu1, ← hr3, ← hr2]
      · split at h
        · rename_i hce
          rw [Option.some_inj] at h
          have hq : q = digitsToNat (rest.takeWhile isDigit) := ((Prod.ext_iff.mp h).1).symm
          have hu2 : u = [] := ((Prod.ext_iff.mp h).2).symm
          rcases closeEnd_complete _ hce with hr4 | hr4
          · refine ⟨rest.takeWhile isDigit, (rest.dropWhile isDigit).takeWhile isSpace, [],
              ?_, hds, hdig, hq, hsp, by rw [hu2]; simp [unitStrings], Or.inl rfl⟩
            rw [hu2, List.append_nil, ← hr4, ← hr3, ← hr2]
          · refine ⟨rest.takeWhile isDigit, (rest.dropWhile isDigit).takeWhile isSpace, ['\n'],
              ?_, hds, hdig, hq, hsp, by rw [hu2]; simp [unitStrings], Or.inr rfl⟩
            rw [hu2, List.append_nil, show (')' : Char) :: ['\n'] = [')', '\n'] from rfl,
              ← hr4, ← hr3, ← hr2]
        · exact absurd h (by simp)
    · split at h
      · rename_i hce
        rw [Option.some_inj] at h
        have hq : q = digitsToNat (rest.takeWhile isDigit) := ((Prod.ext_iff.mp h).1).symm
        have hu2 : u = [] := ((Prod.ext_iff.mp h).2).symm
        rcases closeEnd_complete _ hce with hr4 | hr4
        · refine ⟨rest.takeWhile isDigit, (rest.dropWhile isDigit).takeWhile isSpace, [],
            ?_, hds, hdig, hq, hsp, by rw [hu2]; simp [unitStrings], Or.inl rfl⟩
          rw [hu2, List.append_nil, ← hr4, ← hr3, ← hr2]
        · refine ⟨rest.takeWhile isDigit, (rest.dropWhile isDigit).takeWhile isSpace, ['\n'],
            ?_, hds, hdig, hq, hsp, by rw [hu2]; simp [unitStrings], Or.inr rfl⟩
          rw [hu2, List.append_nil, show (')' : Char) :: ['\n'] = [')', '\n'] from rfl,
            ← hr4, ← hr3, ← hr2]
      · exact absurd h (by simp)

end Courses

namespace Courses

theorem parseSuffix_complete (cs : List Char) (q : Nat) (u : List Char)
    (h : parseSuffix cs = some (q, u)) :
    ∃ w1 ds w2 e, cs = w1 ++ '(' :: (ds ++ (w2 ++ u ++ ')' :: e)) ∧
      (∀ c ∈ w1, isSpace c = true) ∧ ds ≠ [] ∧ (∀ c ∈ ds, isDigit c = true) ∧
      q = digitsToNat ds ∧ (∀ c ∈ w2, isSpace c = true) ∧ u ∈ unitStrings ∧
      (e = [] ∨ e = ['\n']) := by
  unfold parseSuffix at h
  split at h
  · rename_i rest heq
    have hw1 : ∀ c ∈ cs.takeWhile isSpace, isSpace c = true :=
      fun c hc => List.mem_takeWhile_imp hc
    have hcs : cs = cs.takeWhile isSpace ++ ('(' :: rest) := by
      rw [← heq, List.takeWhile_append_dropWhile]
    obtain ⟨ds, w2, e, hshape, hds, hd, hq, hw2, hu, he⟩ := parseAfterParen_complete rest q u h
    have hfin : cs = cs.takeWhile isSpace ++ '(' :: (ds ++ (w2 ++ u ++ ')' :: e)) := by
      conv_lhs => rw [hcs]
      rw [hshape]
    exact ⟨cs.takeWhile isSpace, ds, w2, e, hfin, hw1, hds, hd, hq, hw2, hu, he⟩
  · exact absurd h (by simp)

/-! ### The suffix matcher fails when non-blank text sits before the
parenthesis -/

theorem count_eq_zero_of_all (p : Char → Bool) (l : List Char) (a : Char)
    (hl : ∀ c ∈ l, p c = true) (ha : p a = false) : List.count a l = 0 :=
  List.count_eq_zero.mpr (not_mem_of_all_of_neg p l a hl ha)

theorem paren_not_mem_unit (u : List Char) (hu : u ∈ unitStrings) : '(' ∉ u := by
  simp only [unitStrings, List.mem_cons, List.not_mem_nil, or_false] at hu
  rcases hu with rfl | rfl | rfl | rfl | rfl | rfl <;> decide

/-- A well-formed quantity tail contains exactly one opening parenthesis. -/
theorem count_paren_shape (w1 ds w2 u e : List Char)
    (hw1 : ∀ c ∈ w1, isSpace c = true) (hd : ∀ c ∈ ds, isDigit c = true)
    (hw2 : ∀ c ∈ w2, isSpace c = true) (hu : u ∈ unitStrings)
    (he : e = [] ∨ e = ['\n']) :
    List.count '(' (w1 ++ '(' :: (ds ++ (w2 ++ u ++ ')' :: e))) = 1 := by
  have h1 : List.count '(' w1 = 0 :=
    count_eq_zero_of_all isSpace w1 '(' hw1 (by decide)
  have h2 : List.count '(' ds = 0 :=
    count_eq_zero_of_all isDigit ds '(' hd (by decide)
  have h3 : List.count '(' w2 = 0 :=
    count_eq_zero_of_all isSpace w2 '(' hw2 (by decide)
  have h4 : List.count '(' u = 0 := List.count_eq_zero.mpr (paren_not_mem_unit u hu)
  have h5 : List.count '(' (')' :: e) = 0 := by
    rcases he with rfl | rfl <;> decide
  simp [List.count_append, List.count_cons, h1, h2, h3, h4, h5]

theorem append_paren_eq (p1 : List Char) :
    ∀ (p2 s1 s2 : List Char), p1 ++ '(' :: s1 = p2 ++ '(' :: s2 → '(' ∉ p1 → '(' ∉ p2 →
      p1 = p2 ∧ s1 = s2 := by
  induction p1 with
  | nil =>
    intro p2 s1 s2 h h1 h2
    cases p2 with
    | nil =>
      simp only [List.nil_append] at h
      exact ⟨rfl, (List.cons.injEq _ _ _ _).mp h |>.2⟩
    | cons c t =>
      simp only [List.nil_append, List.cons_append] at h
      have hc := (List.cons.injEq _ _ _ _).mp h
      exact absurd (hc.1 ▸ List.mem_cons_self c t) h2
  | cons c t ih =>
    intro p2 s1 s2 h h1 h2
    cases p2 with
    | nil =>
      simp only [List.nil_append, List.cons_append] at h
      have hc := (List.cons.injEq _ _ _ _).mp h
      exact absurd (hc.1.symm ▸ List.mem_cons_self c t) h1
    | cons c' t' =>
      simp only [List.cons_append] at h
      have hc := (List.cons.injEq _ _ _ _).mp h
      have h1' : '(' ∉ t := fun hh => h1 (List.mem_cons_of_mem c hh)
      have h2' : '(' ∉ t' := fun hh => h2 (List.mem_cons_of_mem c' hh)
      obtain ⟨hp, hs⟩ := ih t' s1 s2 hc.2 h1' h2'
      exact ⟨by rw [hc.1, hp], hs⟩

/-- If the text before the well-formed quantity tail contains a non-blank
character, the suffix matcher rejects the whole string. -/
theorem parseSuffix_fail (bt w1 ds w2 u e : List Char)
    (hbt : ¬∀ c ∈ bt, isSpace c = true)
    (hw1 : ∀ c ∈ w1, isSpace c = true) (hd : ∀ c ∈ ds, isDigit c = true)
    (hw2 : ∀ c ∈ w2, isSpace c = true) (hu : u ∈ unitStrings)
    (he : e = [] ∨ e = ['\n']) :
    parseSuffix (bt ++ (w1 ++ '(' :: (ds ++ (w2 ++ u ++ ')' :: e)))) = none := by
  cases hps : parseSuffix (bt ++ (w1 ++ '(' :: (ds ++ (w2 ++ u ++ ')' :: e)))) with
  | none => rfl
  | some v =>
    obtain ⟨q', u'⟩ := v
    obtain ⟨w1', ds', w2', e', hshape, hw1', hds', hd', hq', hw2', hu', he'⟩ :=
      parseSuffix_complete _ _ _ hps
    have hcount : List.count '(' (bt ++ (w1 ++ '(' :: (ds ++ (w2 ++ u ++ ')' :: e)))) = 1 := by
      rw [hshape]
      exact count_paren_shape w1' ds' w2' u' e' hw1' hd' hw2' hu' he'
    rw [List.count_append, count_paren_shape w1 ds w2 u e hw1 hd hw2 hu he] at hcount
    have hbt0 : List.count '(' bt = 0 := by omega
    have hbtnm : '(' ∉ bt := List.count_eq_zero.mp hbt0
    have hshape2 : (bt ++ w1) ++ '(' :: (ds ++ (w2 ++ u ++ ')' :: e)) =
        w1' ++ '(' :: (ds' ++ (w2' ++ u' ++ ')' :: e')) := by
      rw [List.append_assoc]
      exact hshape
    have hnm1 : '(' ∉ bt ++ w1 := by
      rw [List.mem_append]
      rintro (hh | hh)
      · exact hbtnm hh
      · exact not_mem_of_all_of_neg isSpace w1 '(' hw1 (by decide) hh
    have hnm2 : '(' ∉ w1' :=
      not_mem_of_all_of_neg isSpace w1' '(' hw1' (by decide)
    obtain ⟨hp, _⟩ := append_paren_eq (bt ++ w1) w1' _ _ hshape2 hnm1 hnm2
    refine absurd ?_ hbt
    intro c hc
    have : c ∈ w1' := by
      rw [← hp, List.mem_append]
      exact Or.inl hc
    exact hw1' c this

end Courses

namespace Courses

/-! ### The lazy base group and `strip` -/

theorem dropWhile_append_cases (p : Char → Bool) (b1 b2 : List Char)
    (h2 : ∀ c ∈ b2, p c = true) :
    List.dropWhile p (b1 ++ b2) = List.dropWhile p b1 ++ b2 ∨
      (List.dropWhile p b1 = [] ∧ List.dropWhile p (b1 ++ b2) = []) := by
  induction b1 with
  | nil =>
    right
    exact ⟨rfl, dropWhile_all p b2 h2⟩
  | cons c t ih =>
    cases hp : p c with
    | true =>
      rw [List.cons_append, List.dropWhile_cons_of_pos hp, List.dropWhile_cons_of_pos hp]
      exact ih
    | false =>
      left
      have hp' : ¬p c = true := by rw [hp]; exact Bool.false_ne_true
      rw [List.cons_append, List.dropWhile_cons_of_neg hp', List.dropWhile_cons_of_neg hp',
        List.cons_append]

theorem strip_append_space (b1 b2 : List Char) (h2 : ∀ c ∈ b2, isSpace c = true) :
    strip (b1 ++ b2) = strip b1 := by
  unfold strip
  rcases dropWhile_append_cases isSpace b1 b2 h2 with h | ⟨h1, h⟩
  · rw [h, List.reverse_append,
      dropWhile_append_all isSpace b2.reverse (fun c hc => h2 c (List.mem_reverse.mp hc))]
  · rw [h, h1]

theorem tryFrom_found (b : List Char) :
    ∀ (acc w1 ds w2 u e : List Char), b ≠ [] → (∀ c ∈ b, ¬c = '\n') →
      (∀ c ∈ w1, isSpace c = true) → ds ≠ [] → (∀ c ∈ ds, isDigit c = true) →
      (∀ c ∈ w2, isSpace c = true) → u ∈ unitStrings → (e = [] ∨ e = ['\n']) →
      ∃ b1 b2, b = b1 ++ b2 ∧ b1 ≠ [] ∧ (∀ c ∈ b2, isSpace c = true) ∧
        tryFrom acc (b ++ (w1 ++ '(' :: (ds ++ (w2 ++ u ++ ')' :: e)))) =
          some (acc ++ b1, digitsToNat ds, u) := by
  induction b with
  | nil =>
    intro acc w1 ds w2 u e hb
    exact absurd rfl hb
  | cons c bt ih =>
    intro acc w1 ds w2 u e _hb hnl hw1 hds hd hw2 hu he
    have hc : ¬c = '\n' := hnl c (List.mem_cons_self c bt)
    by_cases hbt : ∀ x ∈ bt, isSpace x = true
    · have hall : ∀ x ∈ bt ++ w1, isSpace x = true := by
        intro x hx
        rcases List.mem_append.mp hx with hx | hx
        · exact hbt x hx
        · exact hw1 x hx
      have hsound : parseSuffix (bt ++ (w1 ++ '(' :: (ds ++ (w2 ++ u ++ ')' :: e)))) =
          some (digitsToNat ds, u) := by
        have hs := parseSuffix_sound (bt ++ w1) ds w2 u e hall hds hd hw2 hu he
        rw [List.append_assoc] at hs
        exact hs
      refine ⟨[c], bt, rfl, by simp, hbt, ?_⟩
      rw [List.cons_append]
      simp only [tryFrom]
      rw [if_neg hc, hsound]
    · have hfail : parseSuffix (bt ++ (w1 ++ '(' :: (ds ++ (w2 ++ u ++ ')' :: e)))) = none :=
        parseSuffix_fail bt w1 ds w2 u e hbt hw1 hd hw2 hu he
      have hbtne : bt ≠ [] := by
        intro hh
        subst hh
        exact hbt (by simp)
      obtain ⟨b1, b2, hsplit, hb1, hb2, hres⟩ :=
        ih (acc ++ [c]) w1 ds w2 u e hbtne (fun x hx => hnl x (List.mem_cons_of_mem _ hx))
          hw1 hds hd hw2 hu he
      refine ⟨c :: b1, b2, ?_, by simp, hb2, ?_⟩
      · rw [List.cons_append, ← hsplit]
      · rw [List.cons_append]
        simp only [tryFrom]
        rw [if_neg hc, hfail, hres]
        simp

theorem tryFrom_complete (s : List Char) :
    ∀ (acc b : List Char) (q : Nat) (u : List Char), tryFrom acc s = some (b, q, u) →
      ∃ b0 rest, s = b0 ++ rest ∧ b0 ≠ [] ∧ (∀ c ∈ b0, ¬c = '\n') ∧ b = acc ++ b0 ∧
        parseSuffix rest = some (q, u) := by
  induction s with
  | nil =>
    intro acc b q u h
    exact absurd h (by simp [tryFrom])
  | cons c t ih =>
    intro acc b q u h
    simp only [tryFrom] at h
    by_cases hc : c = '\n'
    · rw [if_pos hc] at h
      exact absurd h (by simp)
    · rw [if_neg hc] at h
      cases hps : parseSuffix t with
      | some v =>
        obtain ⟨q0, u0⟩ := v
        rw [hps] at h
        simp only [Option.some_inj, Prod.mk.injEq] at h
        obtain ⟨h1, h2, h3⟩ := h
        subst h1
        subst h2
        subst h3
        refine ⟨[c], t, rfl, by simp, ?_, rfl, hps⟩
        intro x hx
        rw [List.mem_singleton] at hx
        rw [hx]
        exact hc
      | none =>
        rw [hps] at h
        obtain ⟨b0, rest, hsr, hb0, hnl, hb, hp⟩ := ih (acc ++ [c]) b q u h
        refine ⟨c :: b0, rest, ?_, by simp, ?_, ?_, hp⟩
        · rw [List.cons_append, ← hsr]
        · intro x hx
          rcases List.mem_cons.mp hx with hx | hx
          · rw [hx]
            exact hc
          · exact hnl x hx
        · rw [hb]
          simp

end Courses

namespace Courses

/-! ### Sorting and lookup lemmas for the final list -/

theorem insertSorted_perm (x : List Char) (l : List (List Char)) :
    (insertSorted x l).Perm (x :: l) := by
  induction l with
  | nil => exact List.Perm.refl _
  | cons y t ih =>
    unfold insertSorted
    by_cases h : lexLe x y = true
    · rw [if_pos h]
    · rw [if_neg h]
      exact (List.Perm.cons y ih).trans (List.Perm.swap x y t)

theorem sortLex_perm (l : List (List Char)) : (sortLex l).Perm l := by
  induction l with
  | nil => exact List.Perm.refl _
  | cons a t ih =>
    unfold sortLex
    rw [List.foldr_cons]
    exact (insertSorted_perm a _).trans (List.Perm.cons a ih)

theorem mem_sortedDedup (l : List (List Char)) (a : List Char) :
    a ∈ sortedDedup l ↔ a ∈ l := by
  unfold sortedDedup
  rw [(sortLex_perm _).mem_iff]
  exact List.mem_dedup

theorem nodup_sortedDedup (l : List (List Char)) : (sortedDedup l).Nodup := by
  unfold sortedDedup
  exact (sortLex_perm _).nodup_iff.mpr (List.nodup_dedup l)

theorem sortedDedup_nil : sortedDedup [] = [] := rfl

theorem keysOf_cons (a : List Char × List (List Char))
    (t : List (List Char × List (List Char))) : keysOf (a :: t) = a.1 :: keysOf t := rfl

theorem getD_eq_nil_of_not_mem (m : List (List Char × List (List Char))) (r : List Char)
    (h : r ∉ keysOf m) : getD m r = [] := by
  induction m with
  | nil => rfl
  | cons he t ih =>
    obtain ⟨r0, v⟩ := he
    simp only [keysOf, List.map_cons, List.mem_cons] at h
    have h0 : ¬r0 = r := fun hh => h (Or.inl hh.symm)
    rw [getD, if_neg h0]
    apply ih
    simp only [keysOf]
    intro hh
    exact h (Or.inr hh)

theorem mem_keysOf_of_getD_ne (m : List (List Char × List (List Char))) (r : List Char)
    (h : getD m r ≠ []) : r ∈ keysOf m := by
  by_contra hh
  exact h (getD_eq_nil_of_not_mem m r hh)

theorem getD_append_keys (A B : List (List Char × List (List Char))) (r : List Char) :
    getD (A ++ B) r = if r ∈ keysOf A then getD A r else getD B r := by
  induction A with
  | nil => simp [keysOf, getD]
  | cons he t ih =>
    obtain ⟨r0, v⟩ := he
    by_cases h0 : r0 = r
    · subst h0
      simp [getD, keysOf]
    · have h0' : ¬r0 = r := h0
      rw [List.cons_append, getD, if_neg h0', ih]
      simp only [keysOf, List.map_cons, List.mem_cons]
      by_cases hm : r ∈ List.map Prod.fst t
      · rw [if_pos (Or.inr hm), if_pos, getD, if_neg h0']
        exact hm
      · rw [if_neg, if_neg]
        · intro hh
          rcases hh with hh | hh
          · exact h0 hh.symm
          · exact hm hh
        · exact hm

theorem getD_ne_nil_of_mem_keys (m : List (List Char × List (List Char))) (r : List Char)
    (hvals : ∀ p ∈ m, p.2 ≠ []) (h : r ∈ keysOf m) : getD m r ≠ [] := by
  induction m with
  | nil => simp [keysOf] at h
  | cons he t ih =>
    obtain ⟨r0, v⟩ := he
    by_cases h0 : r0 = r
    · subst h0
      rw [getD, if_pos rfl]
      exact hvals (r0, v) (List.mem_cons_self _ _)
    · rw [getD, if_neg h0]
      simp only [keysOf, List.map_cons, List.mem_cons] at h
      rcases h with h | h
      · exact absurd h.symm h0
      · exact ih (fun p hp => hvals p (List.mem_cons_of_mem _ hp)) h

theorem rowFor_key (m1 m2 : List (List Char × List (List Char))) (r : List Char)
    (p : List Char × List (List Char)) (h : rowFor m1 m2 r = some p) :
    p.1 = r ∧ p.2 = sortedDedup (combinedItems m1 m2 r) := by
  unfold rowFor at h
  split at h
  · split at h
    · exact absurd h (by simp)
    · rw [Option.some_inj] at h
      rw [← h]
      exact ⟨rfl, rfl⟩
  · exact absurd h (by simp)

theorem rowFor_none (m1 m2 : List (List Char × List (List Char))) (r : List Char)
    (h : rowFor m1 m2 r = none) :
    ¬(r ∈ keysOf m1 ++ keysOf m2 ∧ combinedItems m1 m2 r ≠ []) := by
  unfold rowFor at h
  split at h
  · split at h
    · rename_i hmem hemp
      rintro ⟨_, hne⟩
      exact hne hemp
    · exact absurd h (by simp)
  · rename_i hmem
    rintro ⟨hm, _⟩
    exact hmem hm

theorem rowFor_some (m1 m2 : List (List Char × List (List Char))) (r : List Char)
    (hmem : r ∈ keysOf m1 ++ keysOf m2) (hne : combinedItems m1 m2 r ≠ []) :
    rowFor m1 m2 r = some (r, sortedDedup (combinedItems m1 m2 r)) := by
  unfold rowFor
  rw [if_pos hmem, if_neg hne]

theorem keysOf_filterMap_rowFor (m1 m2 : List (List Char × List (List Char)))
    (l : List (List Char)) :
    keysOf (l.filterMap (rowFor m1 m2)) =
      l.filter (fun r => decide (r ∈ keysOf m1 ++ keysOf m2) &&
        decide (combinedItems m1 m2 r ≠ [])) := by
  induction l with
  | nil => rfl
  | cons r t ih =>
    rw [List.filterMap_cons, List.filter_cons]
    by_cases hmem : r ∈ keysOf m1 ++ keysOf m2
    · by_cases hne : combinedItems m1 m2 r ≠ []
      · rw [rowFor_some m1 m2 r hmem hne]
        have hcond : (decide (r ∈ keysOf m1 ++ keysOf m2) &&
            decide (combinedItems m1 m2 r ≠ [])) = true := by
          rw [decide_eq_true hmem, decide_eq_true hne]
          rfl
        rw [if_pos hcond]
        simp only [keysOf_cons, ih]
      · have hrf : rowFor m1 m2 r = none := by
          unfold rowFor
          rw [if_pos hmem]
          rw [not_not] at hne
          rw [if_pos hne]
        rw [hrf]
        have hcond : (decide (r ∈ keysOf m1 ++ keysOf m2) &&
            decide (combinedItems m1 m2 r ≠ [])) = false := by
          rw [decide_eq_false hne]
          exact Bool.and_false _
        rw [if_neg (by rw [hcond]; exact Bool.false_ne_true)]
        exact ih
    · have hrf : rowFor m1 m2 r = none := by
        unfold rowFor
        rw [if_neg hmem]
      rw [hrf]
      have hcond : (decide (r ∈ keysOf m1 ++ keysOf m2) &&
          decide (combinedItems m1 m2 r ≠ [])) = false := by
        rw [decide_eq_false hmem]
        rfl
      rw [if_neg (by rw [hcond]; exact Bool.false_ne_true)]
      exact ih

theorem getD_filterMap_rowFor (m1 m2 : List (List Char × List (List Char)))
    (l : List (List Char)) (r : List Char) :
    getD (l.filterMap (rowFor m1 m2)) r =
      if r ∈ l then ((rowFor m1 m2 r).map Prod.snd).getD [] else [] := by
  induction l with
  | nil => rfl
  | cons a t ih =>
    rw [List.filterMap_cons]
    cases hrf : rowFor m1 m2 a with
    | none =>
      rw [ih]
      by_cases hat : a = r
      · subst hat
        by_cases hrt : a ∈ t
        · rw [if_pos hrt, if_pos (List.mem_cons_self a t)]
        · rw [if_neg hrt, if_pos (List.mem_cons_self a t), hrf]
          rfl
      · by_cases hrt : r ∈ t
        · rw [if_pos hrt, if_pos (List.mem_cons.mpr (Or.inr hrt))]
        · rw [if_neg hrt, if_neg]
          intro hh
          rcases List.mem_cons.mp hh with hh | hh
          · exact hat hh.symm
          · exact hrt hh
    | some p =>
      obtain ⟨pk, pv⟩ := p
      obtain ⟨hp1, hp2⟩ := rowFor_key m1 m2 a (pk, pv) hrf
      simp only at hp1 hp2
      rw [getD, hp1]
      by_cases hat : a = r
      · subst hat
        rw [if_pos rfl, if_pos (List.mem_cons_self a t), hrf]
        rfl
      · rw [if_neg hat, ih]
        by_cases hrt : r ∈ t
        · rw [if_pos hrt, if_pos (List.mem_cons.mpr (Or.inr hrt))]
        · rw [if_neg hrt, if_neg]
          intro hh
          rcases List.mem_cons.mp hh with hh | hh
          · exact hat hh.symm
          · exact hrt hh

end Courses

namespace Courses

/-! ### Batching lemmas for the Notion export -/

theorem patchLoop_resp (f : Nat → HttpOutcome) (h : ∀ i, isResp (f i) = true) :
    ∀ (bs : List (List Block)) (i : Nat), patchLoop f bs i = (bs, none) := by
  intro bs
  induction bs with
  | nil => intro i; rfl
  | cons b t ih =>
    intro i
    have hb := h i
    unfold patchLoop
    cases hf : f i with
    | timeout => rw [hf] at hb; exact absurd hb (by simp [isResp])
    | exc m => rw [hf] at hb; exact absurd hb (by simp [isResp])
    | resp s u p em =>
      simp [ih (i + 1)]

theorem chunksGo_flatten : ∀ (fuel : Nat) (l : List Block), l.length ≤ fuel →
    (chunksGo fuel l).flatten = l := by
  intro fuel
  induction fuel with
  | zero =>
    intro l hl
    have : l = [] := List.length_eq_zero.mp (Nat.le_zero.mp hl)
    rw [this]
    rfl
  | succ n ih =>
    intro l hl
    cases l with
    | nil => rfl
    | cons b bs =>
      rw [chunksGo, List.flatten_cons, ih]
      · exact List.take_append_drop 100 (b :: bs)
      · rw [List.length_drop]
        simp only [List.length_cons] at hl ⊢
        omega

theorem chunksGo_le100 : ∀ (fuel : Nat) (l : List Block), ∀ c ∈ chunksGo fuel l,
    c.length ≤ 100 := by
  intro fuel
  induction fuel with
  | zero =>
    intro l c hc
    exact absurd hc (by simp [chunksGo])
  | succ n ih =>
    intro l c hc
    cases l with
    | nil => exact absurd hc (by simp [chunksGo])
    | cons b bs =>
      rw [chunksGo] at hc
      rcases List.mem_cons.mp hc with hc | hc
      · rw [hc, List.length_take]
        omega
      · exact ih _ c hc

theorem chunks100_flatten (l : List Block) : (chunks100 l).flatten = l :=
  chunksGo_flatten l.length l (Nat.le_refl _)

theorem chunks100_le100 (l : List Block) : ∀ c ∈ chunks100 l, c.length ≤ 100 :=
  chunksGo_le100 l.length l

end Courses

namespace Courses

/-! ## The claims -/

/-- C2: for every string whose trailing token matches
`"<base> (<integer><unit>?)"` with a unit among g, kg, ml, L, cl or omitted,
`parse_quantity` returns the trimmed base text, the integer quantity and the
unit string (empty when omitted). -/
theorem claim_C2_parse_quantity (b w1 ds w2 u : List Char)
    (hb : b ≠ []) (hnl : ∀ c ∈ b, ¬c = '\n')
    (hw1 : ∀ c ∈ w1, isSpace c = true) (hds : ds ≠ [])
    (hd : ∀ c ∈ ds, isDigit c = true) (hw2 : ∀ c ∈ w2, isSpace c = true)
    (hu : u ∈ unitStrings) :
    parse_quantity (b ++ (w1 ++ '(' :: (ds ++ (w2 ++ u ++ ')' :: [])))) =
      (strip b, some (digitsToNat ds), u) := by
  obtain ⟨b1, b2, hsplit, hb1, hb2, hres⟩ :=
    tryFrom_found b [] w1 ds w2 u [] hb hnl hw1 hds hd hw2 hu (Or.inl rfl)
  unfold parse_quantity
  rw [hres]
  show (strip ([] ++ b1), some (digitsToNat ds), u) = (strip b, some (digitsToNat ds), u)
  rw [List.nil_append, hsplit, strip_append_space b1 b2 hb2]

/-- C2 witness: the three parse examples of the specification. -/
theorem claim_C2_witness :
    parse_quantity "Carottes (450g)".data = ("Carottes".data, some 450, "g".data) ∧
    parse_quantity "Tomates (3)".data = ("Tomates".data, some 3, []) ∧
    parse_quantity "Crème fraîche".data = ("Crème fraîche".data, none, []) := by
  refine ⟨?_, by decide, by decide⟩
  have h := claim_C2_parse_quantity "Carottes".data [' '] "450".data [] "g".data
    (by decide) (by decide) (by decide) (by decide) (by decide) (by decide)
    (by simp [unitStrings])
  have he : "Carottes".data ++ ([' '] ++ '(' :: ("450".data ++ ([] ++ "g".data ++ ')' :: []))) =
      "Carottes (450g)".data := by decide
  rw [he] at h
  rw [h]
  decide

/-- C7: `parse_quantity` is total in the embedding, and on every string that
does not decompose as a trailing quantity pattern it returns the trimmed
original text with an absent quantity and an empty unit. -/
theorem claim_C7_parse_fallback (s : List Char)
    (hnm : ¬∃ b w1 ds w2 u e, s = b ++ (w1 ++ '(' :: (ds ++ (w2 ++ u ++ ')' :: e))) ∧
      b ≠ [] ∧ (∀ c ∈ b, ¬c = '\n') ∧ (∀ c ∈ w1, isSpace c = true) ∧ ds ≠ [] ∧
      (∀ c ∈ ds, isDigit c = true) ∧ (∀ c ∈ w2, isSpace c = true) ∧ u ∈ unitStrings ∧
      (e = [] ∨ e = ['\n'])) :
    parse_quantity s = (strip s, none, []) := by
  cases htf : tryFrom [] s with
  | none =>
    unfold parse_quantity
    rw [htf]
  | some v =>
    obtain ⟨b, q, u⟩ := v
    obtain ⟨b0, rest, hsr, hb0, hnl, _, hp⟩ := tryFrom_complete s [] b q u htf
    obtain ⟨w1, ds, w2, e, hshape, hw1, hds, hd, _, hw2, hu, he⟩ :=
      parseSuffix_complete rest q u hp
    exact absurd ⟨b0, w1, ds, w2, u, e, by rw [hsr, hshape], hb0, hnl, hw1, hds, hd, hw2, hu, he⟩
      hnm

/-- C7 witness: a malformed parenthetical quantity is treated as no
quantity. -/
theorem claim_C7_witness :
    parse_quantity "Tomates (beaucoup)".data = ("Tomates (beaucoup)".data, none, []) := by
  have h := claim_C7_parse_fallback "Tomates (beaucoup)".data ?hnm
  · rw [h]
    decide
  case hnm =>
    rintro ⟨b, w1, ds, w2, u, e, hshape, hb, hnl, hw1, hds, hd, hw2, hu, he⟩
    obtain ⟨b1, b2, _, _, _, hres⟩ :=
      tryFrom_found b [] w1 ds w2 u e hb hnl hw1 hds hd hw2 hu he
    rw [← hshape] at hres
    have hnone : tryFrom [] "Tomates (beaucoup)".data = none := by decide
    rw [hnone] at hres
    exact Option.noConfusion hres

/-- C1 counterexample: two quantity-bearing ingredients with the same merge
key but different units.  The merged display keeps the first-seen unit, so
the two orders of the same two ingredients produce different mappings. -/
theorem claim_C1_counterexample :
    (([⟨"A (1g)".data, "R".data⟩, ⟨"A (2kg)".data, "R".data⟩] : List Ing).Perm
      [⟨"A (2kg)".data, "R".data⟩, ⟨"A (1g)".data, "R".data⟩]) ∧
    "A (3g)".data ∈
      getD (merge_ingredients [⟨"A (1g)".data, "R".data⟩, ⟨"A (2kg)".data, "R".data⟩])
        "R".data ∧
    "A (3g)".data ∉
      getD (merge_ingredients [⟨"A (2kg)".data, "R".data⟩, ⟨"A (1g)".data, "R".data⟩])
        "R".data :=
  ⟨List.Perm.swap (⟨"A (2kg)".data, "R".data⟩ : Ing) (⟨"A (1g)".data, "R".data⟩ : Ing) [],
    by decide, by decide⟩

/-- C1 (amended): `merge_ingredients` is order-insensitive as a mapping from
aisle to the set of rendered display strings, provided any two ingredients
sharing a merge key carry the same base text and, when both bear quantities,
the same unit. -/
theorem claim_C1_merge_commutative (l1 l2 : List Ing) (hperm : l1.Perm l2)
    (hcompat : ∀ x ∈ l1, ∀ y ∈ l1, IngCompat x y) (r d : List Char) :
    d ∈ getD (merge_ingredients l1) r ↔ d ∈ getD (merge_ingredients l2) r := by
  rw [mem_getD_merge, mem_getD_merge]
  constructor
  · rintro ⟨ke, h1, h2, h3⟩
    exact ⟨ke, (mem_mergeFold_perm l1 l2 hperm hcompat ke).mp h1, h2, h3⟩
  · rintro ⟨ke, h1, h2, h3⟩
    exact ⟨ke, (mem_mergeFold_perm l1 l2 hperm hcompat ke).mpr h1, h2, h3⟩

/-- C1 witness: same-unit same-base ingredients merge to the same display
set in either order. -/
theorem claim_C1_witness :
    "Riz (150g)".data ∈
      getD (merge_ingredients [⟨"Riz (100g)".data, "R".data⟩, ⟨"Riz (50g)".data, "R".data⟩])
        "R".data ↔
    "Riz (150g)".data ∈
      getD (merge_ingredients [⟨"Riz (50g)".data, "R".data⟩, ⟨"Riz (100g)".data, "R".data⟩])
        "R".data :=
  claim_C1_merge_commutative _ _
    (List.Perm.swap (⟨"Riz (50g)".data, "R".data⟩ : Ing) (⟨"Riz (100g)".data, "R".data⟩ : Ing) [])
    (by decide) "R".data "Riz (150g)".data

/-- C3: when an ingredient arrives whose merge key already has an entry, the
entry is updated in place: present quantities are summed keeping the stored
unit; a present quantity replaces an absent one adopting the new unit; an
absent quantity leaves the entry unchanged. -/
theorem claim_C3_merge_pair (l : List Ing) (y : Ing) (e : Entry)
    (h : lookupKey (mergeFold l) (keyOf (parseIng y)) = some e) :
    lookupKey (mergeFold (l ++ [y])) (keyOf (parseIng y)) =
      some (updEntry e (parseIng y)) ∧
    (∀ qy eq0, (parseIng y).qty = some qy → e.qty = some eq0 →
      updEntry e (parseIng y) = { e with qty := some (eq0 + qy) }) ∧
    (∀ qy, (parseIng y).qty = some qy → e.qty = none →
      updEntry e (parseIng y) = { e with qty := some qy, unit := (parseIng y).unit }) ∧
    ((parseIng y).qty = none → updEntry e (parseIng y) = e) := by
  refine ⟨?_, ?_, ?_, ?_⟩
  · show lookupKey (List.foldl stepMerged [] (l ++ [y])) _ = _
    rw [List.foldl_append, List.foldl_cons, List.foldl_nil, lookupKey_stepMerged, if_pos rfl]
    have h2 : List.foldl stepMerged [] l = mergeFold l := rfl
    rw [h2, h]
    rfl
  · intro qy eq0 hqy he0
    unfold updEntry
    rw [hqy, he0]
  · intro qy hqy he0
    unfold updEntry
    rw [hqy, he0]
  · intro hqy
    unfold updEntry
    rw [hqy]

/-- C3 witness: `Riz (100g)` then `riz (50kg)` (same key, later different
unit) sums to 150 and keeps the first-seen unit `g`. -/
theorem claim_C3_witness :
    lookupKey (mergeFold ([⟨"Riz (100g)".data, "R".data⟩] ++ [⟨"riz (50kg)".data, "R".data⟩]))
      (keyOf (parseIng ⟨"riz (50kg)".data, "R".data⟩)) =
      some ⟨"R".data, "Riz".data, some 150, "g".data⟩ := by
  have h := (claim_C3_merge_pair [⟨"Riz (100g)".data, "R".data⟩] ⟨"riz (50kg)".data, "R".data⟩
    ⟨"R".data, "Riz".data, some 100, "g".data⟩ (by decide)).1
  rw [h]
  decide

/-- C6: merging `L ++ L` doubles every present quantity (entry by entry, for
every merge key) and leaves quantity-absent entries — and hence their
rendered display strings — unchanged, introducing no additional keys. -/
theorem claim_C6_merge_doubling (L : List Ing) (k : MKey) :
    lookupKey (mergeFold (L ++ L)) k = (lookupKey (mergeFold L) k).map doubleEntry ∧
    (∀ e : Entry, e.qty = none → renderEntry (doubleEntry e) = renderEntry e) := by
  refine ⟨lookup_mergeFold_self L k, ?_⟩
  intro e he
  have hd : doubleEntry e = e := by
    obtain ⟨er, eb, eqy, eu⟩ := e
    simp only at he
    subst he
    simp [doubleEntry]
  rw [hd]

/-- C6 witness: `Riz (100g)` duplicated merges to 200g, and doubling leaves
a quantity-absent entry's display unchanged. -/
theorem claim_C6_witness :
    lookupKey (mergeFold ([⟨"Riz (100g)".data, "R".data⟩] ++ [⟨"Riz (100g)".data, "R".data⟩]))
      (keyOf (parseIng ⟨"Riz (100g)".data, "R".data⟩)) =
      some ⟨"R".data, "Riz".data, some 200, "g".data⟩ ∧
    renderEntry (doubleEntry ⟨"R".data, "Sel".data, none, []⟩) =
      renderEntry ⟨"R".data, "Sel".data, none, []⟩ := by
  have h := claim_C6_merge_doubling [⟨"Riz (100g)".data, "R".data⟩]
    (keyOf (parseIng ⟨"Riz (100g)".data, "R".data⟩))
  refine ⟨?_, h.2 ⟨"R".data, "Sel".data, none, []⟩ rfl⟩
  rw [h.1]
  decide

end Courses

namespace Courses

theorem keysOf_append (A B : List (List Char × List (List Char))) :
    keysOf (A ++ B) = keysOf A ++ keysOf B := by
  simp [keysOf]

/-- C4: the final list names the canonical aisles present in the union of
the two sources first, in the fixed canonical order, then the remaining
aisles of the union sorted alphabetically.  The two sources are aisle
dictionaries whose stored item lists are non-empty, as produced by the
application. -/
theorem claim_C4_aisle_order (m1 m2 : List (List Char × List (List Char)))
    (h1 : ∀ p ∈ m1, p.2 ≠ []) (h2 : ∀ p ∈ m2, p.2 ≠ []) :
    keysOf (build_final_list m1 m2) =
      rayon_order.filter (fun r => decide (r ∈ keysOf m1 ++ keysOf m2)) ++
      sortedDedup ((keysOf m1 ++ keysOf m2).filter (fun r => decide (r ∉ rayon_order))) := by
  have hco : ∀ r, r ∈ keysOf m1 ++ keysOf m2 → combinedItems m1 m2 r ≠ [] := by
    intro r hr hemp
    unfold combinedItems at hemp
    obtain ⟨he1, he2⟩ := List.append_eq_nil.mp hemp
    rcases List.mem_append.mp hr with hr | hr
    · exact getD_ne_nil_of_mem_keys m1 r h1 hr he1
    · exact getD_ne_nil_of_mem_keys m2 r h2 hr he2
  unfold build_final_list
  rw [keysOf_append, keysOf_filterMap_rowFor, keysOf_filterMap_rowFor]
  congr 1
  · apply List.filter_congr
    intro r _
    by_cases hm : r ∈ keysOf m1 ++ keysOf m2
    · rw [decide_eq_true hm, decide_eq_true (hco r hm)]
      rfl
    · rw [decide_eq_false hm]
      rfl
  · apply List.filter_eq_self.mpr
    intro a ha
    have haX := (mem_sortedDedup _ _).mp ha
    have hm := List.mem_filter.mp haX
    rw [decide_eq_true hm.1, decide_eq_true (hco a hm.1)]
    rfl

/-- C4 witness: sources covering FRUITS, ZZZ_UNKNOWN and BOULANGERIE
produce the aisle order BOULANGERIE, FRUITS, ZZZ_UNKNOWN. -/
theorem claim_C4_witness :
    keysOf (build_final_list
      [("FRUITS".data, [['x']]), ("ZZZ_UNKNOWN".data, [['y']])]
      [("BOULANGERIE".data, [['z']])]) =
      ["BOULANGERIE".data, "FRUITS".data, "ZZZ_UNKNOWN".data] := by
  have h := claim_C4_aisle_order
    [("FRUITS".data, [['x']]), ("ZZZ_UNKNOWN".data, [['y']])]
    [("BOULANGERIE".data, [['z']])] (by decide) (by decide)
  rw [h]
  decide

/-- C5: an aisle appears in the final list iff the union of its items from
the two sources is non-empty; each present aisle carries the sorted
deduplicated union of both sources' items; membership in an aisle's final
items is membership in either source; and the final items of an aisle are
duplicate-free, so an exact display string present in both sources appears
exactly once. -/
theorem claim_C5_union_dedup (m1 m2 : List (List Char × List (List Char))) (r : List Char) :
    (r ∈ keysOf (build_final_list m1 m2) ↔ combinedItems m1 m2 r ≠ []) ∧
    getD (build_final_list m1 m2) r = sortedDedup (combinedItems m1 m2 r) ∧
    (∀ d, d ∈ getD (build_final_list m1 m2) r ↔ d ∈ getD m1 r ∨ d ∈ getD m2 r) ∧
    (getD (build_final_list m1 m2) r).Nodup := by
  have hval : getD (build_final_list m1 m2) r = sortedDedup (combinedItems m1 m2 r) := by
    unfold build_final_list
    rw [getD_append_keys, keysOf_filterMap_rowFor]
    by_cases hpred : r ∈ keysOf m1 ++ keysOf m2 ∧ combinedItems m1 m2 r ≠ []
    · have hb : (decide (r ∈ keysOf m1 ++ keysOf m2) &&
          decide (combinedItems m1 m2 r ≠ [])) = true := by
        rw [decide_eq_true hpred.1, decide_eq_true hpred.2]
        rfl
      by_cases hcan : r ∈ rayon_order
      · have hmemf : r ∈ rayon_order.filter (fun r => decide (r ∈ keysOf m1 ++ keysOf m2) &&
            decide (combinedItems m1 m2 r ≠ [])) := List.mem_filter.mpr ⟨hcan, hb⟩
        rw [if_pos hmemf, getD_filterMap_rowFor, if_pos hcan,
          rowFor_some m1 m2 r hpred.1 hpred.2]
        rfl
      · have hnmemf : r ∉ rayon_order.filter (fun r => decide (r ∈ keysOf m1 ++ keysOf m2) &&
            decide (combinedItems m1 m2 r ≠ [])) :=
          fun hh => hcan (List.mem_filter.mp hh).1
        rw [if_neg hnmemf, getD_filterMap_rowFor, if_pos,
          rowFor_some m1 m2 r hpred.1 hpred.2]
        · rfl
        · rw [mem_sortedDedup]
          exact List.mem_filter.mpr ⟨hpred.1, decide_eq_true hcan⟩
    · have hcomb : combinedItems m1 m2 r = [] := by
        by_cases hm : r ∈ keysOf m1 ++ keysOf m2
        · by_cases hne : combinedItems m1 m2 r = []
          · exact hne
          · exact absurd ⟨hm, hne⟩ hpred
        · unfold combinedItems
          rw [getD_eq_nil_of_not_mem m1 r (fun hh => hm (List.mem_append.mpr (Or.inl hh))),
            getD_eq_nil_of_not_mem m2 r (fun hh => hm (List.mem_append.mpr (Or.inr hh)))]
          rfl
      have hb : (decide (r ∈ keysOf m1 ++ keysOf m2) &&
          decide (combinedItems m1 m2 r ≠ [])) = false := by
        rw [decide_eq_false (not_not.mpr hcomb)]
        exact Bool.and_false _
      have hnmemf : r ∉ rayon_order.filter (fun r => decide (r ∈ keysOf m1 ++ keysOf m2) &&
          decide (combinedItems m1 m2 r ≠ [])) := by
        intro hh
        have hb2 := (List.mem_filter.mp hh).2
        rw [hb] at hb2
        exact Bool.noConfusion hb2
      rw [if_neg hnmemf, getD_filterMap_rowFor, hcomb, sortedDedup_nil]
      have hrn : rowFor m1 m2 r = none := by
        unfold rowFor
        by_cases hm : r ∈ keysOf m1 ++ keysOf m2
        · rw [if_pos hm, if_pos hcomb]
        · rw [if_neg hm]
      by_cases hins : r ∈ sortedDedup ((keysOf m1 ++ keysOf m2).filter
          (fun r => decide (r ∉ rayon_order)))
      · rw [if_pos hins, hrn]
        rfl
      · rw [if_neg hins]
  refine ⟨?_, hval, ?_, ?_⟩
  · constructor
    · intro hk
      unfold build_final_list at hk
      rw [keysOf_append, keysOf_filterMap_rowFor, keysOf_filterMap_rowFor] at hk
      rcases List.mem_append.mp hk with hk | hk <;>
      · have hb := (List.mem_filter.mp hk).2
        have hb2 := (Bool.and_eq_true _ _).mp hb
        exact of_decide_eq_true hb2.2
    · intro hne
      have hmem : r ∈ keysOf m1 ++ keysOf m2 := by
        by_cases hg1 : getD m1 r = []
        · have hg2 : getD m2 r ≠ [] := by
            unfold combinedItems at hne
            rw [hg1] at hne
            simpa using hne
          exact List.mem_append.mpr (Or.inr (mem_keysOf_of_getD_ne m2 r hg2))
        · exact List.mem_append.mpr (Or.inl (mem_keysOf_of_getD_ne m1 r hg1))
      have hb : (decide (r ∈ keysOf m1 ++ keysOf m2) &&
          decide (combinedItems m1 m2 r ≠ [])) = true := by
        rw [decide_eq_true hmem, decide_eq_true hne]
        rfl
      unfold build_final_list
      rw [keysOf_append, keysOf_filterMap_rowFor, keysOf_filterMap_rowFor]
      by_cases hcan : r ∈ rayon_order
      · exact List.mem_append.mpr (Or.inl (List.mem_filter.mpr ⟨hcan, hb⟩))
      · refine List.mem_append.mpr (Or.inr (List.mem_filter.mpr ⟨?_, hb⟩))
        rw [mem_sortedDedup]
        exact List.mem_filter.mpr ⟨hmem, decide_eq_true hcan⟩
  · intro d
    rw [hval, mem_sortedDedup]
    unfold combinedItems
    exact List.mem_append
  · rw [hval]
    exact nodup_sortedDedup _

/-- C5 witness: a display string present in both sources for one aisle is
in the duplicate-free final list, hence appears exactly once. -/
theorem claim_C5_witness :
    "Pommes".data ∈
      getD (build_final_list [("FRUITS".data, ["Pommes".data])]
        [("FRUITS".data, ["Pommes".data, "Abricots".data])]) "FRUITS".data ∧
    (getD (build_final_list [("FRUITS".data, ["Pommes".data])]
        [("FRUITS".data, ["Pommes".data, "Abricots".data])]) "FRUITS".data).Nodup :=
  ⟨((claim_C5_union_dedup [("FRUITS".data, ["Pommes".data])]
      [("FRUITS".data, ["Pommes".data, "Abricots".data])] "FRUITS".data).2.2.1
      "Pommes".data).mpr (Or.inl (by decide)),
    (claim_C5_union_dedup [("FRUITS".data, ["Pommes".data])]
      [("FRUITS".data, ["Pommes".data, "Abricots".data])] "FRUITS".data).2.2.2⟩

end Courses

namespace Courses

theorem export_resp200 (c : NotionCfg) (fl : List (List Char × List (List Char)))
    (sel : List (List Char)) (u p em : List Char) (patchf : Nat → HttpOutcome) :
    export_to_notion (some c) fl sel (.resp 200 u p em) patchf =
      match (patchLoop patchf (chunks100 ((buildChildren fl sel).drop 100)) 0).2 with
      | none => ⟨true, successMsg, some u, some ((buildChildren fl sel).take 100),
          (patchLoop patchf (chunks100 ((buildChildren fl sel).drop 100)) 0).1⟩
      | some .timeout => ⟨false, timeoutMsg, none, some ((buildChildren fl sel).take 100),
          (patchLoop patchf (chunks100 ((buildChildren fl sel).drop 100)) 0).1⟩
      | some (.exc m) => ⟨false, excMsg m, none, some ((buildChildren fl sel).take 100),
          (patchLoop patchf (chunks100 ((buildChildren fl sel).drop 100)) 0).1⟩ := rfl

/-- C8: `export_to_notion` never raises past its boundary: missing
credentials, a creation timeout, another creation exception and a non-200
creation status each yield a `(False, message, None)` triple, and a `True`
result arises only from a creation response with status 200. -/
theorem claim_C8_export_outcomes (cfg : Option NotionCfg)
    (fl : List (List Char × List (List Char))) (sel : List (List Char))
    (post : HttpOutcome) (patchf : Nat → HttpOutcome) :
    (cfg = none → export_to_notion cfg fl sel post patchf =
      ⟨false, configMsg, none, none, []⟩) ∧
    (cfg ≠ none → post = .timeout →
      (export_to_notion cfg fl sel post patchf).ok = false ∧
      (export_to_notion cfg fl sel post patchf).msg = timeoutMsg ∧
      (export_to_notion cfg fl sel post patchf).url = none) ∧
    (∀ m, cfg ≠ none → post = .exc m →
      (export_to_notion cfg fl sel post patchf).ok = false ∧
      (export_to_notion cfg fl sel post patchf).msg = excMsg m ∧
      (export_to_notion cfg fl sel post patchf).url = none) ∧
    (∀ s u p em, cfg ≠ none → post = .resp s u p em → s ≠ 200 →
      (export_to_notion cfg fl sel post patchf).ok = false ∧
      (export_to_notion cfg fl sel post patchf).msg = notionErrMsg em ∧
      (export_to_notion cfg fl sel post patchf).url = none) ∧
    ((export_to_notion cfg fl sel post patchf).ok = true →
      ∃ c s u p em, cfg = some c ∧ post = .resp s u p em ∧ s = 200 ∧
        (export_to_notion cfg fl sel post patchf).msg = successMsg ∧
        (export_to_notion cfg fl sel post patchf).url = some u) := by
  cases cfg with
  | none =>
    refine ⟨fun _ => rfl, fun hc => absurd rfl hc, fun m hc => absurd rfl hc,
      fun s u p em hc => absurd rfl hc, fun hok => ?_⟩
    simp [export_to_notion] at hok
  | some c =>
    refine ⟨fun hh => Option.noConfusion hh, ?_, ?_, ?_, ?_⟩
    · intro _ hpost
      subst hpost
      exact ⟨rfl, rfl, rfl⟩
    · intro m _ hpost
      subst hpost
      exact ⟨rfl, rfl, rfl⟩
    · intro s u p em _ hpost hs
      subst hpost
      simp only [export_to_notion]
      rw [if_neg hs]
      exact ⟨rfl, rfl, rfl⟩
    · intro hok
      cases post with
      | timeout => simp [export_to_notion] at hok
      | exc m => simp [export_to_notion] at hok
      | resp s u p em =>
        by_cases hs : s = 200
        · subst hs
          rw [export_resp200] at hok
          cases hpl : (patchLoop patchf (chunks100 ((buildChildren fl sel).drop 100)) 0).2 with
          | some f =>
            rw [hpl] at hok
            cases f <;> simp at hok
          | none =>
            refine ⟨c, 200, u, p, em, rfl, rfl, rfl, ?_, ?_⟩ <;>
              rw [export_resp200, hpl]
        · simp only [export_to_notion] at hok
          rw [if_neg hs] at hok
          simp at hok

/-- C8 witness: a creation timeout yields `(False, timeout message, None)`
without raising. -/
theorem claim_C8_witness :
    (export_to_notion (some ⟨['t'], ['p']⟩) [(['R'], [['a']])] [] .timeout
      (fun _ => .resp 200 [] [] [])).ok = false ∧
    (export_to_notion (some ⟨['t'], ['p']⟩) [(['R'], [['a']])] [] .timeout
      (fun _ => .resp 200 [] [] [])).msg = timeoutMsg ∧
    (export_to_notion (some ⟨['t'], ['p']⟩) [(['R'], [['a']])] [] .timeout
      (fun _ => .resp 200 [] [] [])).url = none :=
  (claim_C8_export_outcomes (some ⟨['t'], ['p']⟩) [(['R'], [['a']])] [] .timeout
    (fun _ => .resp 200 [] [] [])).2.1 (by simp) rfl

/-- C9: the page-creation call carries exactly the first
`min(length, 100)` serialized blocks, and on a 200 creation response with
non-raising follow-up calls the remaining blocks are sent in order in
batches of at most 100. -/
theorem claim_C9_export_batching (c : NotionCfg)
    (fl : List (List Char × List (List Char))) (sel : List (List Char))
    (post : HttpOutcome) (patchf : Nat → HttpOutcome) :
    (export_to_notion (some c) fl sel post patchf).creationPayload =
      some ((buildChildren fl sel).take 100) ∧
    ((buildChildren fl sel).take 100).length = min 100 (buildChildren fl sel).length ∧
    (∀ u p em, post = .resp 200 u p em → (∀ i, isResp (patchf i) = true) →
      (export_to_notion (some c) fl sel post patchf).patchPayloads =
        chunks100 ((buildChildren fl sel).drop 100)) ∧
    (∀ b ∈ chunks100 ((buildChildren fl sel).drop 100), b.length ≤ 100) ∧
    (chunks100 ((buildChildren fl sel).drop 100)).flatten =
      (buildChildren fl sel).drop 100 := by
  refine ⟨?_, List.length_take 100 (buildChildren fl sel), ?_,
    chunks100_le100 _, chunks100_flatten _⟩
  · cases post with
    | timeout => rfl
    | exc m => rfl
    | resp s u p em =>
      simp only [export_to_notion]
      by_cases hs : s = 200
      · rw [if_pos hs]
        cases hpl : (patchLoop patchf (chunks100 ((buildChildren fl sel).drop 100)) 0).2 with
        | none => rfl
        | some f => cases f <;> rfl
      · rw [if_neg hs]
  · intro u p em hpost hresp
    subst hpost
    rw [export_resp200, patchLoop_resp patchf hresp]

set_option maxRecDepth 100000 in
/-- C9 witness: 150 serialized blocks produce one creation call with the
first 100 blocks and exactly one follow-up call with the remaining 50. -/
theorem claim_C9_witness :
    (buildChildren [(['R'], List.replicate 149 ['x'])] []).length = 150 ∧
    (export_to_notion (some ⟨['t'], ['p']⟩) [(['R'], List.replicate 149 ['x'])] []
      (.resp 200 ['u'] ['i'] []) (fun _ => .resp 200 [] [] [])).creationPayload =
      some ((buildChildren [(['R'], List.replicate 149 ['x'])] []).take 100) ∧
    (export_to_notion (some ⟨['t'], ['p']⟩) [(['R'], List.replicate 149 ['x'])] []
      (.resp 200 ['u'] ['i'] []) (fun _ => .resp 200 [] [] [])).patchPayloads =
      [(buildChildren [(['R'], List.replicate 149 ['x'])] []).drop 100] ∧
    ((buildChildren [(['R'], List.replicate 149 ['x'])] []).take 100).length = 100 ∧
    ((buildChildren [(['R'], List.replicate 149 ['x'])] []).drop 100).length = 50 := by
  have h := claim_C9_export_batching ⟨['t'], ['p']⟩ [(['R'], List.replicate 149 ['x'])] []
    (.resp 200 ['u'] ['i'] []) (fun _ => .resp 200 [] [] [])
  refine ⟨by decide, h.1, ?_, by decide, by decide⟩
  rw [h.2.2.1 ['u'] ['i'] [] rfl (fun _ => rfl)]
  decide

set_option maxRecDepth 100000 in
/-- C10 counterexample: the creation request returns status 200 but a
follow-up batch call times out, and the function returns a failure triple
rather than `(True, success message, url)`. -/
theorem claim_C10_counterexample :
    (export_to_notion (some ⟨['t'], ['p']⟩) [(['R'], List.replicate 149 ['x'])] []
      (.resp 200 ['u'] ['i'] []) (fun _ => .timeout)).ok = false ∧
    (export_to_notion (some ⟨['t'], ['p']⟩) [(['R'], List.replicate 149 ['x'])] []
      (.resp 200 ['u'] ['i'] []) (fun _ => .timeout)).msg = timeoutMsg ∧
    (export_to_notion (some ⟨['t'], ['p']⟩) [(['R'], List.replicate 149 ['x'])] []
      (.resp 200 ['u'] ['i'] []) (fun _ => .timeout)).url = none := by
  refine ⟨?_, ?_, ?_⟩ <;> decide

/-- C10 (amended): on a 200 creation response, the result is
`(True, success message, page url)` whenever every follow-up batch call
returns a response rather than raising — the statuses of those responses
are never consulted — while an exception raised by a follow-up call is
caught and converted into a failure triple. -/
theorem claim_C10_success_path (c : NotionCfg)
    (fl : List (List Char × List (List Char))) (sel : List (List Char))
    (u p em : List Char) (patchf : Nat → HttpOutcome)
    (hresp : ∀ i, isResp (patchf i) = true) :
    export_to_notion (some c) fl sel (.resp 200 u p em) patchf =
      ⟨true, successMsg, some u, some ((buildChildren fl sel).take 100),
        chunks100 ((buildChildren fl sel).drop 100)⟩ := by
  rw [export_resp200, patchLoop_resp patchf hresp]

set_option maxRecDepth 100000 in
/-- C10 witness: follow-up responses with status 500 still yield the
success triple. -/
theorem claim_C10_witness :
    export_to_notion (some ⟨['t'], ['p']⟩) [(['R'], List.replicate 149 ['x'])] []
      (.resp 200 ['u'] ['i'] []) (fun _ => .resp 500 [] [] ['e']) =
      ⟨true, successMsg, some ['u'],
        some ((buildChildren [(['R'], List.replicate 149 ['x'])] []).take 100),
        chunks100 ((buildChildren [(['R'], List.replicate 149 ['x'])] []).drop 100)⟩ :=
  claim_C10_success_path ⟨['t'], ['p']⟩ [(['R'], List.replicate 149 ['x'])] []
    ['u'] ['i'] [] (fun _ => .resp 500 [] [] ['e']) (fun _ => rfl)

end Courses
